import Mathlib

/-!
# Verification of the myLint Markdown normalizer

A shallow embedding of `src/main.ts` of the `obsidian-mylint` repository.
Text is modelled as `List Char`.  The embedding follows the effective
semantics of the JavaScript string operations used by the source:

* `String.prototype.trim` / `trimEnd` with the JS whitespace class;
* `split(/\r?\n/)`;
* the heading test `/^\s*#{1,6}\s+/` and list test `/^\s*([-*+]|\d+\.)\s+/`;
* the two lazy math-delimiter replacements (a lazy regex
  `/\\\[[\s\S]*?\\\]/` match runs from each `\[` to the first following
  `\]`, non-overlapping, scanning left to right);
* the frontmatter regex `/^---\s*[\r\n]([\s\S]*?)[\r\n]---\s*([\r\n]|$)/`
  with backtracking (greedy `\s*`, lazy inner, alternation order);
* the code-block regex `/```[\s\S]*?```/g` with placeholder substitution;
* `String.prototype.replace(searchString, replacementString)`, which
  replaces the first occurrence and performs `$`-substitution
  (`$$`, `$&`, `` $` ``, `$'`) inside the replacement string.
-/

namespace MyLint

/-- JS whitespace (the class matched by `\s` and trimmed by `trim`):
space, tab, LF, VT, FF, CR, NBSP, and the Unicode space separators. -/
def isWS (c : Char) : Bool :=
  c = ' ' || c = '\t' || c = '\n' || c = Char.ofNat 11 || c = Char.ofNat 12 ||
  c = '\r' || c = Char.ofNat 160 || c = Char.ofNat 0x1680 ||
  (0x2000 ≤ c.toNat && c.toNat ≤ 0x200a) ||
  c = Char.ofNat 0x2028 || c = Char.ofNat 0x2029 || c = Char.ofNat 0x202f ||
  c = Char.ofNat 0x205f || c = Char.ofNat 0x3000 || c = Char.ofNat 0xfeff

/-- `String.prototype.trimStart`: drop leading whitespace. -/
def jsTrimStart (s : List Char) : List Char := s.dropWhile isWS

/-- `String.prototype.trimEnd`: drop trailing whitespace. -/
def jsTrimEnd (s : List Char) : List Char := (s.reverse.dropWhile isWS).reverse

/-- `String.prototype.trim`. -/
def jsTrim (s : List Char) : List Char := jsTrimEnd (jsTrimStart s)

/-- `content.split(/\r?\n/)`: split at each `\n`, also consuming an
immediately preceding `\r`.  A lone `\r` is not a separator. -/
def splitLines : List Char → List (List Char)
  | [] => [[]]
  | '\r' :: '\n' :: rest => [] :: splitLines rest
  | '\n' :: rest => [] :: splitLines rest
  | c :: rest =>
    match splitLines rest with
    | [] => [[c]]
    | l :: ls => (c :: l) :: ls

/-- `newLines.join("\n")`. -/
def joinNL : List (List Char) → List Char
  | [] => []
  | [l] => l
  | l :: ls => l ++ '\n' :: joinNL ls

/-- The heading test `/^\s*#{1,6}\s+/.test(rawLine)`: after leading
whitespace, one to six `#` characters followed by a whitespace character.
(With backtracking, the regex succeeds iff the maximal run of `#` after
the leading whitespace has length 1..6 and is followed by whitespace.) -/
def isHeadingB (l : List Char) : Bool :=
  let rest := l.dropWhile isWS
  let hashes := rest.takeWhile (· = '#')
  let after := rest.dropWhile (· = '#')
  1 ≤ hashes.length && hashes.length ≤ 6 &&
    (match after with
     | [] => false
     | c :: _ => isWS c)

/-- The list-item test `/^\s*([-*+]|\d+\.)\s+/.test(rawLine)`: after
leading whitespace, either a `-`/`*`/`+` marker or a maximal digit run
followed by `.`, then a whitespace character. -/
def isListItemB (l : List Char) : Bool :=
  let rest := l.dropWhile isWS
  match rest with
  | [] => false
  | c :: cs =>
    if c = '-' || c = '*' || c = '+' then
      match cs with
      | [] => false
      | d :: _ => isWS d
    else
      let digits := rest.takeWhile (·.isDigit)
      let after := rest.dropWhile (·.isDigit)
      1 ≤ digits.length &&
        (match after with
         | '.' :: d :: _ => isWS d
         | _ => false)

/-- Prefix test on character lists. -/
def isPref : List Char → List Char → Bool
  | [], _ => true
  | _ :: _, [] => false
  | p :: ps, c :: cs => p = c && isPref ps cs

/-- Split a text at the first occurrence of a (nonempty) pattern:
`splitSub pat s = some (pre, post)` with `s = pre ++ pat ++ post` and the
occurrence leftmost; `none` when the pattern does not occur. -/
def splitSub (pat : List Char) : List Char → Option (List Char × List Char)
  | [] => none
  | c :: cs =>
    if isPref pat (c :: cs) then some ([], (c :: cs).drop pat.length)
    else
      match splitSub pat cs with
      | some (pre, post) => some (c :: pre, post)
      | none => none

/-- One fuelled pass of
`content.replace(/\\OPEN\s*([\s\S]*?)\s*\\CLOSE/g, m => WRAP + inner.trim() + WRAP)`:
each match runs from a `\OPEN` to the first following `\CLOSE`
(lazy), non-overlapping, left to right; the whitespace-trimmed interior is
wrapped in `wrap` on both sides.  The fuel only bounds the recursion; it
is always sufficient when `fuel ≥ s.length`. -/
def rewritePassF (opn cls wrap : List Char) : Nat → List Char → List Char
  | 0, s => s
  | fuel + 1, s =>
    match splitSub opn s with
    | none => s
    | some (pre, rest) =>
      match splitSub cls rest with
      | none => s
      | some (inner, rest2) =>
        pre ++ wrap ++ jsTrim inner ++ wrap ++ rewritePassF opn cls wrap fuel rest2

/-- The display-math pass: `\[ ... \]` → `$$...$$`. -/
def rewriteDisplay (s : List Char) : List Char :=
  rewritePassF ['\\', '['] ['\\', ']'] ['$', '$'] s.length s

/-- The inline-math pass: `\( ... \)` → `$...$`. -/
def rewriteInline (s : List Char) : List Char :=
  rewritePassF ['\\', '('] ['\\', ')'] ['$'] s.length s

/-- The `lastMeaningfulType` values of the line loop. -/
inductive MType where
  | heading | list | other
  deriving DecidableEq, Repr

/-- The blank-line test of the loop, `line.trim() === ""`. -/
def blankB (l : List Char) : Bool := (jsTrim l).isEmpty

/-- The guard `lines.length > 0 && lines[last].trim() !== ""` (applied to
the reversed buffer, whose head is the last pushed line), also used as
the lookahead `i+1 < lines.length && lines[i+1].trim() !== ""` on the
remaining input. -/
def headNonblankB : List (List Char) → Bool
  | [] => false
  | hd :: _ => !blankB hd

/-- Push one standardized blank line when the buffer ends in a non-blank
line (the guard shared by the heading and blank branches). -/
def padded (acc : List (List Char)) : List (List Char) :=
  if headNonblankB acc then [] :: acc else acc

/-- The blank-branch update: `newLines.length === 0 || last.trim() !== ""`
pushes one standardized blank line. -/
def paddedB (acc : List (List Char)) : List (List Char) :=
  match acc with
  | [] => [] :: acc
  | _ :: _ => padded acc

/-- The line loop of `modifyContentProtected` (lines 45–136 of
`src/main.ts`).  `acc` is the `newLines` buffer stored in reverse
(freshest line first); `lastT` is `lastMeaningfulType`. -/
def procLines : List (List Char) → List (List Char) → Option MType → List (List Char)
  | [], acc, _ => acc
  | rawLine :: rest, acc, lastT =>
    if isHeadingB rawLine then
      -- blank line before the heading when the buffer ends in a non-blank
      -- line; blank line after it when the next input line is non-blank
      let acc2 := jsTrimEnd rawLine :: padded acc
      procLines rest (if headNonblankB rest then [] :: acc2 else acc2) (some .heading)
    else if isListItemB rawLine then
      -- pop the blank run between consecutive list items
      let acc1 := if lastT = some .list then acc.dropWhile blankB else acc
      procLines rest (jsTrimEnd rawLine :: acc1) (some .list)
    else if blankB rawLine then
      procLines rest (paddedB acc) lastT
    else
      -- blank line between a list and following ordinary text
      let acc1 := if lastT = some .list && headNonblankB acc then [] :: acc else acc
      procLines rest (jsTrimEnd rawLine :: acc1) (some .other)

/-- `finalContent.replace(/\n{3,}/g, "\n\n")`: a newline in front of at
least two further newlines is dropped, capping every run of `\n` at 2. -/
def capNL : List Char → List Char
  | [] => []
  | c :: cs =>
    if c = '\n' && cs.take 2 = ['\n', '\n'] then capNL cs
    else c :: capNL cs

/-- Lines 40–149 of `src/main.ts`: split into lines, run the line loop,
join with `\n`, cap blank runs, and trim the whole result. -/
def normalizeLines (s : List Char) : List Char :=
  jsTrim (capNL (joinNL (procLines (splitLines s) [] none).reverse))

/-- `modifyContentProtected` (lines 24–150 of `src/main.ts`): the two math
passes followed by the line-normalization stage. -/
def modifyContentProtected (content : List Char) : List Char :=
  normalizeLines (rewriteInline (rewriteDisplay content))

end MyLint

namespace MyLint

/-! ## The orchestrator (`onload`, lines 155–220 of `src/main.ts`) -/

/-- `([\r\n]|$)` at the given suffix: the char class is preferred, `$`
matches only at the end of the string.  Returns the consumed length. -/
def matchEolOrEnd : List Char → Option Nat
  | [] => some 0
  | c :: _ => if c = '\r' || c = '\n' then some 1 else none

/-- `\s*([\r\n]|$)` with greedy backtracking: the longest whitespace run
whose continuation matches is preferred. -/
def matchWsEol : List Char → Option Nat
  | [] => some 0
  | c :: cs =>
    if isWS c then
      match matchWsEol cs with
      | some n => some (n + 1)
      | none => matchEolOrEnd (c :: cs)
    else matchEolOrEnd (c :: cs)

/-- `[\r\n]---\s*([\r\n]|$)` at the given suffix. -/
def matchClose (s : List Char) : Option Nat :=
  match s with
  | c :: cs =>
    if (c = '\r' || c = '\n') && isPref ['-', '-', '-'] cs then
      (matchWsEol (cs.drop 3)).map (· + 4)
    else none
  | [] => none

/-- The lazy inner `([\s\S]*?)` followed by `[\r\n]---\s*([\r\n]|$)`:
the shortest inner whose continuation matches is preferred. -/
def matchInner : List Char → Option Nat
  | [] => none
  | c :: cs =>
    match matchClose (c :: cs) with
    | some n => some n
    | none => (matchInner cs).map (· + 1)

/-- `\s*[\r\n]` followed by the rest of the pattern, with greedy
backtracking on `\s*`. -/
def matchOpenWs : List Char → Option Nat
  | [] => none
  | c :: cs =>
    let here : Option Nat :=
      if c = '\r' || c = '\n' then (matchInner cs).map (· + 1) else none
    if isWS c then
      match matchOpenWs cs with
      | some n => some (n + 1)
      | none => here
    else here

/-- The frontmatter regex `/^---\s*[\r\n]([\s\S]*?)[\r\n]---\s*([\r\n]|$)/`
applied at position 0: `some n` is the length of `yamlMatch[0]`. -/
def yamlMatchLen (s : List Char) : Option Nat :=
  if isPref ['-', '-', '-'] s then (matchOpenWs (s.drop 3)).map (· + 3)
  else none

/-- The backtick character (U+0060). -/
def tick : Char := Char.ofNat 96

/-- The three-backtick fence. -/
def ticks : List Char := [tick, tick, tick]

/-- `%%%CODEBLOCK_PLACEHOLDER_${i}%%%`. -/
def placeholder (i : Nat) : List Char :=
  "%%%CODEBLOCK_PLACEHOLDER_".data ++ (Nat.repr i).data ++ "%%%".data

/-- `fileContentToProcess.replace(codeBlockRegex, match => ...)` with
`codeBlockRegex = /```[\s\S]*?```/g`: each lazy match runs from a fence to
the first following fence; matches are replaced by numbered placeholders
and collected in order.  Fuel is sufficient when `fuel ≥ s.length`. -/
def protectBlocksF : Nat → Nat → List Char → (List Char × List (List Char))
  | 0, _, s => (s, [])
  | fuel + 1, k, s =>
    match splitSub ticks s with
    | none => (s, [])
    | some (pre, rest) =>
      match splitSub ticks rest with
      | none => (s, [])
      | some (inner, rest2) =>
        let block := ticks ++ inner ++ ticks
        let (s2, bs) := protectBlocksF fuel (k + 1) rest2
        (pre ++ placeholder k ++ s2, block :: bs)

/-- Code-block protection starting at placeholder index 0. -/
def protectBlocks (s : List Char) : List Char × List (List Char) :=
  protectBlocksF s.length 0 s

/-- `GetSubstitution` for a string-pattern `replace`: expand the
replacement text, where `$$` yields `$`, `$&` the matched text, `` $` ``
the text before the match, `$'` the text after the match, and any other
`$`-sequence is literal (a string pattern has no capture groups). -/
def expandRepl (matched pre post : List Char) : List Char → List Char
  | [] => []
  | '$' :: c :: r =>
    if c = '$' then '$' :: expandRepl matched pre post r
    else if c = '&' then matched ++ expandRepl matched pre post r
    else if c = tick then pre ++ expandRepl matched pre post r
    else if c = Char.ofNat 39 then post ++ expandRepl matched pre post r
    else '$' :: expandRepl matched pre post (c :: r)
  | c :: r => c :: expandRepl matched pre post r

/-- `s.replace(pat, repl)` with string arguments: replace the first
occurrence of `pat`, performing `$`-substitution inside `repl`. -/
def jsReplaceOnce (s pat repl : List Char) : List Char :=
  match splitSub pat s with
  | none => s
  | some (pre, post) => pre ++ expandRepl pat pre post repl ++ post

/-- The restoration loop (lines 198–204 of `src/main.ts`): for each index
in order, replace the first occurrence of the placeholder by the stored
block. -/
def restoreBlocks (s : List Char) (blocks : List (List Char)) : List Char :=
  (blocks.enum).foldl (fun acc ib => jsReplaceOnce acc (placeholder ib.1) ib.2) s

/-- The full transformation applied by the ribbon handler: frontmatter
split, code-block protection, `modifyContentProtected`, restoration, and
prepending the frontmatter. -/
def lint (doc : List Char) : List Char :=
  let fmLen := (yamlMatchLen doc).getD 0
  let frontmatter := doc.take fmLen
  let body := doc.drop fmLen
  let pb := protectBlocks body
  let modified := modifyContentProtected pb.1
  frontmatter ++ restoreBlocks modified pb.2

end MyLint

namespace MyLint

/-! ## Basic facts about trimming -/

theorem jsTrimEnd_eq_rdropWhile (l : List Char) : jsTrimEnd l = l.rdropWhile isWS := rfl

theorem jsTrimEnd_pre (l : List Char) : jsTrimEnd l <+: l := List.rdropWhile_prefix _ _

theorem jsTrimStart_suffix (l : List Char) : jsTrimStart l <:+ l := List.dropWhile_suffix _

theorem jsTrim_inf (l : List Char) : jsTrim l <:+: l :=
  ((jsTrimEnd_pre _).isInfix).trans ((jsTrimStart_suffix l).isInfix)

theorem jsTrimEnd_nil_iff {l : List Char} : jsTrimEnd l = [] ↔ ∀ c ∈ l, isWS c := by
  rw [jsTrimEnd_eq_rdropWhile, List.rdropWhile_eq_nil_iff]

theorem jsTrim_nil_iff {l : List Char} : jsTrim l = [] ↔ ∀ c ∈ l, isWS c := by
  rw [jsTrim, jsTrimEnd_nil_iff]
  constructor
  · intro h c hc
    have := List.takeWhile_append_dropWhile (p := isWS) (l := l)
    rw [← this] at hc
    rcases List.mem_append.mp hc with h1 | h2
    · exact List.mem_takeWhile_imp h1
    · exact h c h2
  · intro h c hc
    exact h c ((jsTrimStart_suffix l).subset hc)

theorem jsTrimStart_eq_self_of_head {c : Char} {cs : List Char} (h : isWS c = false) :
    jsTrimStart (c :: cs) = c :: cs := by
  simp [jsTrimStart, List.dropWhile_cons, h]

theorem jsTrimEnd_eq_self {l : List Char} (h : ∀ hl : l ≠ [], isWS (l.getLast hl) = false) :
    jsTrimEnd l = l := by
  rw [jsTrimEnd_eq_rdropWhile, List.rdropWhile_eq_self_iff]
  intro hl
  simp [h hl]

theorem jsTrimEnd_idem (l : List Char) : jsTrimEnd (jsTrimEnd l) = jsTrimEnd l :=
  List.rdropWhile_idempotent _ _

theorem jsTrimStart_idem (l : List Char) : jsTrimStart (jsTrimStart l) = jsTrimStart l :=
  List.dropWhile_idempotent _ _

theorem jsTrimEnd_decomp (l : List Char) :
    ∃ w, l = jsTrimEnd l ++ w ∧ ∀ c ∈ w, isWS c := by
  refine ⟨(l.reverse.takeWhile isWS).reverse, ?_, ?_⟩
  · conv_lhs => rw [← l.reverse_reverse,
      ← List.takeWhile_append_dropWhile (p := isWS) (l := l.reverse)]
    rw [List.reverse_append]
    rfl
  · intro c hc
    exact List.mem_takeWhile_imp (List.mem_reverse.mp hc)

theorem jsTrimEnd_append_ws {l w : List Char} (hw : ∀ c ∈ w, isWS c) :
    jsTrimEnd (l ++ w) = jsTrimEnd l := by
  unfold jsTrimEnd
  rw [List.reverse_append, List.dropWhile_append_of_pos]
  intro c hc
  exact hw c (List.mem_reverse.mp hc)

theorem jsTrim_append_ws {l w : List Char} (hw : ∀ c ∈ w, isWS c) :
    jsTrim (l ++ w) = jsTrim l := by
  unfold jsTrim jsTrimStart
  rw [List.dropWhile_append]
  split
  · rename_i h
    rw [List.isEmpty_iff] at h
    rw [h, jsTrimEnd_nil_iff.mpr (fun c hc => hw c ((List.dropWhile_suffix isWS).subset hc))]
    rfl
  · exact jsTrimEnd_append_ws hw

theorem jsTrim_jsTrimEnd (l : List Char) : jsTrim (jsTrimEnd l) = jsTrim l := by
  obtain ⟨w, hd, hw⟩ := jsTrimEnd_decomp l
  conv_rhs => rw [hd]
  rw [jsTrim_append_ws hw]

theorem jsTrim_jsTrimStart (l : List Char) : jsTrim (jsTrimStart l) = jsTrim l := by
  unfold jsTrim
  rw [jsTrimStart_idem]

theorem jsTrim_idem (l : List Char) : jsTrim (jsTrim l) = jsTrim l := by
  conv_lhs => rw [show jsTrim l = jsTrimEnd (jsTrimStart l) from rfl]
  rw [jsTrim_jsTrimEnd, jsTrim_jsTrimStart]

/-! ## The `\n{3,}` cap -/

/-- `s` contains no run of three (or more) consecutive `\n` characters. -/
def ok3 : List Char → Bool
  | [] => true
  | [_] => true
  | [_, _] => true
  | c1 :: c2 :: c3 :: rest =>
    !(c1 = '\n' && c2 = '\n' && c3 = '\n') && ok3 (c2 :: c3 :: rest)

theorem ok3_tail {c : Char} {cs : List Char} (h : ok3 (c :: cs) = true) : ok3 cs = true := by
  match cs with
  | [] => rfl
  | [_] => rfl
  | x :: y :: rest =>
    rw [ok3] at h
    simp only [Bool.and_eq_true] at h
    exact h.2

theorem take2_nn : ∀ {cs : List Char}, cs.take 2 = ['\n', '\n'] → ∃ u, cs = '\n' :: '\n' :: u
  | [], h => by simp at h
  | [a], h => by simp at h
  | a :: b :: u, h => by
    simp only [List.take_succ_cons, List.take_zero, List.cons.injEq, and_true] at h
    exact ⟨u, by rw [h.1, h.2]⟩

theorem capNL_startN : ∀ {s t : List Char}, capNL s = '\n' :: t → ∃ u, s = '\n' :: u := by
  intro s
  induction s with
  | nil => intro t h; simp [capNL] at h
  | cons c cs ih =>
    intro t h
    rw [capNL] at h
    split at h
    · rename_i hg
      simp only [Bool.and_eq_true, decide_eq_true_eq] at hg
      exact ⟨cs, by rw [hg.1]⟩
    · obtain ⟨hc, -⟩ := List.cons.inj h
      exact ⟨cs, by rw [hc]⟩

theorem capNL_startNN {s t : List Char}
    (h : capNL s = '\n' :: '\n' :: t) : ∃ u, s = '\n' :: '\n' :: u := by
  induction s with
  | nil => simp [capNL] at h
  | cons c cs ih =>
    rw [capNL] at h
    split at h
    · rename_i hg
      simp only [Bool.and_eq_true, decide_eq_true_eq] at hg
      obtain ⟨u, hu⟩ := take2_nn hg.2
      exact ⟨'\n' :: u, by rw [hg.1, hu]⟩
    · obtain ⟨hc, htl⟩ := List.cons.inj h
      obtain ⟨u, hu⟩ := capNL_startN htl
      exact ⟨u, by rw [hc, hu]⟩

theorem ok3_capNL (s : List Char) : ok3 (capNL s) = true := by
  induction s with
  | nil => rfl
  | cons c cs ih =>
    rw [capNL]
    split
    · exact ih
    · rename_i hg
      rcases hw : capNL cs with _ | ⟨x, _ | ⟨y, rest⟩⟩
      · rfl
      · rfl
      · rw [ok3]
        have hok : ok3 (x :: y :: rest) = true := hw ▸ ih
        have hne : ¬(c = '\n' ∧ x = '\n' ∧ y = '\n') := by
          rintro ⟨h1, h2, h3⟩
          rw [h2, h3] at hw
          obtain ⟨u, hu⟩ := capNL_startNN hw
          exact hg (by simp [h1, hu])
        rw [hok, Bool.and_true]
        cases hc1 : decide (c = '\n') <;> cases hc2 : decide (x = '\n') <;>
          cases hc3 : decide (y = '\n') <;> simp_all

theorem capNL_eq_self {s : List Char} (h : ok3 s = true) : capNL s = s := by
  induction s with
  | nil => rfl
  | cons c cs ih =>
    rw [capNL]
    split
    · rename_i hg
      exfalso
      simp only [Bool.and_eq_true, decide_eq_true_eq] at hg
      obtain ⟨u, hu⟩ := take2_nn hg.2
      rw [hg.1, hu, ok3] at h
      simp at h
    · rw [ih (ok3_tail h)]

theorem ok3_pre : ∀ {p s : List Char}, ok3 s = true → p <+: s → ok3 p = true := by
  intro p
  induction p with
  | nil => intro s _ _; rfl
  | cons a p' ih =>
    intro s hs hp
    obtain ⟨t, ht⟩ := hp
    subst ht
    rcases p' with _ | ⟨b, _ | ⟨c2, p''⟩⟩
    · rfl
    · rfl
    · rw [ok3]
      rw [show (a :: b :: c2 :: p'') ++ t = a :: b :: c2 :: (p'' ++ t) from rfl, ok3] at hs
      simp only [Bool.and_eq_true] at hs ⊢
      exact ⟨hs.1, ih hs.2 ⟨t, rfl⟩⟩

theorem ok3_suf : ∀ {t s : List Char}, ok3 s = true → t <:+ s → ok3 t = true := by
  intro t s hs hsuf
  obtain ⟨u, hu⟩ := hsuf
  induction u generalizing s with
  | nil => rw [← hu] at hs; simpa using hs
  | cons c u' ih =>
    subst hu
    exact ih (ok3_tail hs) rfl

theorem ok3_inf {t s : List Char} (hs : ok3 s = true) (h : t <:+: s) : ok3 t = true := by
  obtain ⟨w, hpw, hws⟩ := List.infix_iff_prefix_suffix.mp h
  exact ok3_pre (ok3_suf hs hws) hpw

/-! ## Facts about `splitLines` -/

theorem splitLines_ne_nil (s : List Char) : splitLines s ≠ [] := by
  induction s using splitLines.induct <;> simp_all [splitLines]

theorem splitLines_cons_other {c : Char} {rest l0 : List Char} {ls0 : List (List Char)}
    (h1 : ∀ r1, c = '\r' → rest = '\n' :: r1 → False) (h2 : c ≠ '\n')
    (heq : splitLines rest = l0 :: ls0) :
    splitLines (c :: rest) = (c :: l0) :: ls0 := by
  rw [splitLines.eq_def]
  split
  · rename_i hceq
    exact absurd hceq (List.cons_ne_nil c rest)
  · rename_i rest1 hceq
    obtain ⟨hc, hr⟩ := List.cons.inj hceq
    exact absurd hr (fun hr => h1 rest1 hc hr)
  · rename_i rest1 hceq
    exact absurd (List.cons.inj hceq).1 h2
  · rename_i cc restc hc1 hc2 hceq
    obtain ⟨hc, hr⟩ := List.cons.inj hceq
    subst hc
    subst hr
    rw [heq]

theorem splitLines_head_pre :
    ∀ {s l : List Char} {ls : List (List Char)}, splitLines s = l :: ls → l <+: s := by
  intro s
  induction s using splitLines.induct with
  | case1 =>
    intro l ls h
    obtain ⟨h1, -⟩ := List.cons.inj h
    simp [← h1]
  | case2 rest ih =>
    intro l ls h
    obtain ⟨h1, -⟩ :=
      List.cons.inj (show ([] : List Char) :: splitLines rest = l :: ls from h)
    simp [← h1]
  | case3 rest ih =>
    intro l ls h
    obtain ⟨h1, -⟩ :=
      List.cons.inj (show ([] : List Char) :: splitLines rest = l :: ls from h)
    simp [← h1]
  | case4 c rest h1 h2 heq ih =>
    exact absurd heq (splitLines_ne_nil rest)
  | case5 c rest h1 h2 l0 ls0 heq ih =>
    intro l ls h
    rw [splitLines_cons_other h1 h2 heq] at h
    obtain ⟨h3, -⟩ := List.cons.inj h
    rw [← h3]
    exact List.cons_prefix_cons.mpr ⟨rfl, ih heq⟩

theorem splitLines_inf : ∀ (s : List Char), ∀ l ∈ splitLines s, l <:+: s := by
  intro s
  induction s using splitLines.induct with
  | case1 =>
    intro l hl
    simp [splitLines] at hl
    simp [hl]
  | case2 rest ih =>
    intro l hl
    rw [show splitLines ('\r' :: '\n' :: rest) = [] :: splitLines rest from rfl] at hl
    rcases List.mem_cons.mp hl with h | h
    · simp [h]
    · exact List.infix_cons (List.infix_cons (ih l h))
  | case3 rest ih =>
    intro l hl
    rw [show splitLines ('\n' :: rest) = [] :: splitLines rest from rfl] at hl
    rcases List.mem_cons.mp hl with h | h
    · simp [h]
    · exact List.infix_cons (ih l h)
  | case4 c rest h1 h2 heq ih =>
    exact absurd heq (splitLines_ne_nil rest)
  | case5 c rest h1 h2 l0 ls0 heq ih =>
    intro l hl
    rw [splitLines_cons_other h1 h2 heq] at hl
    rcases List.mem_cons.mp hl with h | h
    · subst h
      exact ((splitLines_head_pre (splitLines_cons_other h1 h2 heq)) :
        (c :: l0) <+: (c :: rest)).isInfix
    · exact List.infix_cons (ih l (by rw [heq]; exact List.mem_cons_of_mem _ h))

theorem splitLines_no_newline : ∀ (s : List Char), ∀ l ∈ splitLines s, '\n' ∉ l := by
  intro s
  induction s using splitLines.induct with
  | case1 =>
    intro l hl
    simp [splitLines] at hl
    simp [hl]
  | case2 rest ih =>
    intro l hl
    rw [show splitLines ('\r' :: '\n' :: rest) = [] :: splitLines rest from rfl] at hl
    rcases List.mem_cons.mp hl with h | h
    · simp [h]
    · exact ih l h
  | case3 rest ih =>
    intro l hl
    rw [show splitLines ('\n' :: rest) = [] :: splitLines rest from rfl] at hl
    rcases List.mem_cons.mp hl with h | h
    · simp [h]
    · exact ih l h
  | case4 c rest h1 h2 heq ih =>
    exact absurd heq (splitLines_ne_nil rest)
  | case5 c rest h1 h2 l0 ls0 heq ih =>
    intro l hl
    rw [splitLines_cons_other h1 h2 heq] at hl
    rcases List.mem_cons.mp hl with h | h
    · subst h
      intro hmem
      rcases List.mem_cons.mp hmem with h3 | h3
      · exact h2 h3.symm
      · exact ih l0 (by rw [heq]; exact List.mem_cons_self _ _) h3
    · exact ih l (by rw [heq]; exact List.mem_cons_of_mem _ h)

/-! ## Blank lines and the line classifiers -/

theorem isHeadingB_of_blank {l : List Char} (h : (jsTrim l).isEmpty = true) :
    isHeadingB l = false := by
  rw [List.isEmpty_iff] at h
  have hws : ∀ c ∈ l, isWS c := jsTrim_nil_iff.mp h
  rw [isHeadingB]
  simp only [List.dropWhile_eq_nil_iff.mpr hws, List.takeWhile_nil, List.length_nil]
  rfl

theorem isListItemB_of_blank {l : List Char} (h : (jsTrim l).isEmpty = true) :
    isListItemB l = false := by
  rw [List.isEmpty_iff] at h
  have hws : ∀ c ∈ l, isWS c := jsTrim_nil_iff.mp h
  rw [isListItemB]
  simp only [List.dropWhile_eq_nil_iff.mpr hws]

/-! ## No-op behaviour of the rewriters -/

theorem splitSub_none_of_not_mem {c : Char} {ps s : List Char} (h : c ∉ s) :
    splitSub (c :: ps) s = none := by
  induction s with
  | nil => rfl
  | cons d ds ih =>
    rw [splitSub, if_neg, ih (fun hm => h (List.mem_cons_of_mem d hm))]
    rw [isPref]
    simp only [Bool.and_eq_true, decide_eq_true_eq, not_and]
    intro hcd
    exact absurd (hcd ▸ List.mem_cons_self d ds) h

theorem rewritePassF_no_open {opn cls wrap s : List Char} {fuel : Nat}
    (h : splitSub opn s = none) : rewritePassF opn cls wrap fuel s = s := by
  cases fuel with
  | zero => rfl
  | succ n =>
    rw [rewritePassF, h]

theorem rewriteDisplay_no_bs {s : List Char} (h : '\\' ∉ s) : rewriteDisplay s = s :=
  rewritePassF_no_open (splitSub_none_of_not_mem h)

theorem rewriteInline_no_bs {s : List Char} (h : '\\' ∉ s) : rewriteInline s = s :=
  rewritePassF_no_open (splitSub_none_of_not_mem h)

/-! ## C9: all-whitespace input -/

theorem procLines_all_blank :
    ∀ (lines : List (List Char)) (lastT : Option MType),
      (∀ l ∈ lines, (jsTrim l).isEmpty = true) → procLines lines [[]] lastT = [[]] := by
  intro lines
  induction lines with
  | nil => intro lastT _; rfl
  | cons l rest ih =>
    intro lastT hb
    have hbl := hb l (List.mem_cons_self _ _)
    rw [procLines, if_neg, if_neg, if_pos (show blankB l = true from hbl)]
    · exact ih lastT (fun x hx => hb x (List.mem_cons_of_mem _ hx))
    · simp [isListItemB_of_blank hbl]
    · simp [isHeadingB_of_blank hbl]

/-- C9: every input consisting only of whitespace characters (including
the empty string) is normalized to the empty string. -/
theorem C9_whitespace_only (s : List Char) (h : ∀ c ∈ s, isWS c = true) :
    modifyContentProtected s = [] := by
  have hbs : '\\' ∉ s := fun hm => by
    have := h '\\' hm
    exact absurd this (by decide)
  rw [modifyContentProtected, rewriteDisplay_no_bs hbs, rewriteInline_no_bs hbs,
    normalizeLines]
  have hlines : ∀ l ∈ splitLines s, (jsTrim l).isEmpty = true := by
    intro l hl
    rw [List.isEmpty_iff, jsTrim_nil_iff]
    exact fun c hc => h c ((splitLines_inf s l hl).subset hc)
  rcases hsp : splitLines s with _ | ⟨l0, rest⟩
  · exact absurd hsp (splitLines_ne_nil s)
  · have hb0 : (jsTrim l0).isEmpty = true := hlines l0 (hsp ▸ List.mem_cons_self _ _)
    rw [procLines, if_neg, if_neg, if_pos (show blankB l0 = true from hb0),
      show paddedB [] = [[]] from rfl, procLines_all_blank]
    · rfl
    · intro x hx
      exact hlines x (hsp ▸ List.mem_cons_of_mem _ hx)
    · simp [isListItemB_of_blank hb0]
    · simp [isHeadingB_of_blank hb0]

/-- C9 witness. -/
theorem C9_whitespace_only_w : modifyContentProtected "  \n\t \n ".data = [] :=
  C9_whitespace_only _ (by decide)

/-! ## Prefix-stability of the line classifiers -/

theorem dropWhile_nil_of_takeWhile_len {α : Type} {q : α → Bool} {l : List α}
    (h : (l.takeWhile q).length = l.length) : l.dropWhile q = [] := by
  have happ := List.takeWhile_append_dropWhile (p := q) (l := l)
  have hlen := congrArg List.length happ
  rw [List.length_append, h] at hlen
  exact List.length_eq_zero.mp (by omega)

theorem dropWhile_append_ne {α : Type} {q : α → Bool} {l t : List α}
    (h : l.dropWhile q ≠ []) : (l ++ t).dropWhile q = l.dropWhile q ++ t := by
  rw [List.dropWhile_append, if_neg]
  simpa [List.isEmpty_iff] using h

theorem takeWhile_append_stable {α : Type} {q : α → Bool} {l t : List α}
    (h : l.dropWhile q ≠ []) : (l ++ t).takeWhile q = l.takeWhile q := by
  rw [List.takeWhile_append, if_neg]
  intro hlen
  exact h (dropWhile_nil_of_takeWhile_len hlen)

theorem isHeadingB_append {p t : List Char} (h : isHeadingB p = true) :
    isHeadingB (p ++ t) = true := by
  rw [isHeadingB] at h ⊢
  simp only [Bool.and_eq_true, decide_eq_true_eq] at h ⊢
  obtain ⟨⟨h1, h2⟩, h3⟩ := h
  rcases hrp : p.dropWhile isWS with _ | ⟨x, xs⟩
  · rw [hrp] at h1
    simp at h1
  · have hne : p.dropWhile isWS ≠ [] := by rw [hrp]; exact List.cons_ne_nil _ _
    have hd : (p ++ t).dropWhile isWS = (x :: xs) ++ t := by
      rw [dropWhile_append_ne hne, hrp]
    rw [hd]
    rw [hrp] at h1 h2 h3
    rcases haf : (x :: xs).dropWhile (· = '#') with _ | ⟨c, cs⟩
    · rw [haf] at h3
      simp at h3
    · rw [haf] at h3
      have hafne : (x :: xs).dropWhile (· = '#') ≠ [] := by
        rw [haf]; exact List.cons_ne_nil _ _
      rw [takeWhile_append_stable hafne, dropWhile_append_ne hafne, haf]
      exact ⟨⟨h1, h2⟩, h3⟩

theorem dotMatch_true {after : List Char}
    (h : (match after with | '.' :: d :: _ => isWS d | _ => false) = true) :
    ∃ d ds, after = '.' :: d :: ds ∧ isWS d = true := by
  split at h
  · rename_i d ds
    exact ⟨d, ds, rfl, h⟩
  · exact absurd h (by simp)

theorem isListItemB_append {p t : List Char} (h : isListItemB p = true) :
    isListItemB (p ++ t) = true := by
  rw [isListItemB] at h ⊢
  rcases hrp : p.dropWhile isWS with _ | ⟨c, cs⟩
  · rw [hrp] at h
    simp at h
  · have hne : p.dropWhile isWS ≠ [] := by rw [hrp]; exact List.cons_ne_nil _ _
    have hd : (p ++ t).dropWhile isWS = c :: (cs ++ t) := by
      rw [dropWhile_append_ne hne, hrp]
      rfl
    rw [hrp] at h
    rw [hd]
    simp only at h ⊢
    by_cases hm : (c = '-' || c = '*' || c = '+') = true
    · rw [if_pos hm] at h
      rw [if_pos hm]
      rcases hcs : cs with _ | ⟨d, ds⟩
      · rw [hcs] at h
        simp at h
      · rw [hcs] at h
        exact h
    · rw [if_neg hm] at h
      rw [if_neg hm]
      simp only [Bool.and_eq_true, decide_eq_true_eq] at h ⊢
      obtain ⟨h1, h2⟩ := h
      obtain ⟨d2, ds2, hafter, hwd⟩ := dotMatch_true h2
      have hafne : (c :: cs).dropWhile (·.isDigit) ≠ [] := by
        rw [hafter]; exact List.cons_ne_nil _ _
      have heq : (c :: (cs ++ t)) = (c :: cs) ++ t := rfl
      rw [heq, takeWhile_append_stable hafne, dropWhile_append_ne hafne, hafter]
      exact ⟨h1, hwd⟩

theorem isHeadingB_pre {p l : List Char} (hp : p <+: l) (h : isHeadingB p = true) :
    isHeadingB l = true := by
  obtain ⟨t, rfl⟩ := hp
  exact isHeadingB_append h

theorem isListItemB_pre {p l : List Char} (hp : p <+: l) (h : isListItemB p = true) :
    isListItemB l = true := by
  obtain ⟨t, rfl⟩ := hp
  exact isListItemB_append h

/-! ## Line classes -/

/-- The four line classifications, in the dispatch order of the loop. -/
inductive LC where
  | h | li | b | o
  deriving DecidableEq, Repr

/-- Classification of a line as the loop dispatches it: heading first,
then list item, then blank, otherwise ordinary text. -/
def lineClass (l : List Char) : LC :=
  if isHeadingB l then .h
  else if isListItemB l then .li
  else if (jsTrim l).isEmpty then .b
  else .o

theorem not_list_of_heading {l : List Char} (h : isHeadingB l = true) :
    isListItemB l = false := by
  rw [isHeadingB] at h
  simp only [Bool.and_eq_true, decide_eq_true_eq] at h
  obtain ⟨⟨h1, -⟩, -⟩ := h
  rcases hrp : l.dropWhile isWS with _ | ⟨c, cs⟩
  · rw [hrp] at h1
    simp at h1
  · rw [hrp] at h1
    have hc : c = '#' := by
      by_contra hcne
      rw [List.takeWhile_cons, if_neg (by simpa using hcne)] at h1
      simp at h1
    rw [isListItemB, hrp, hc]
    simp only
    rw [if_neg (by decide), List.takeWhile_cons, if_neg (by decide)]
    simp

theorem nonblank_of_heading {l : List Char} (h : isHeadingB l = true) :
    (jsTrim l).isEmpty = false := by
  cases hb : (jsTrim l).isEmpty
  · rfl
  · rw [isHeadingB_of_blank hb] at h
    exact absurd h (by simp)

theorem nonblank_of_listItem {l : List Char} (h : isListItemB l = true) :
    (jsTrim l).isEmpty = false := by
  cases hb : (jsTrim l).isEmpty
  · rfl
  · rw [isListItemB_of_blank hb] at h
    exact absurd h (by simp)

theorem lineClass_eq_h {l : List Char} : lineClass l = LC.h ↔ isHeadingB l = true := by
  rw [lineClass]
  constructor
  · intro h
    by_contra hb
    rw [if_neg hb] at h
    split at h
    · exact absurd h (by simp)
    · split at h <;> exact absurd h (by simp)
  · intro h
    rw [if_pos h]

theorem lineClass_eq_li {l : List Char} : lineClass l = LC.li ↔ isListItemB l = true := by
  rw [lineClass]
  constructor
  · intro h
    split at h
    · exact absurd h (by simp)
    · split at h
      · assumption
      · split at h <;> exact absurd h (by simp)
  · intro h
    rw [if_neg, if_pos h]
    intro hh
    rw [not_list_of_heading hh] at h
    exact absurd h (by simp)

theorem lineClass_eq_b {l : List Char} : lineClass l = LC.b ↔ (jsTrim l).isEmpty = true := by
  rw [lineClass]
  constructor
  · intro h
    split at h
    · exact absurd h (by simp)
    · split at h
      · exact absurd h (by simp)
      · split at h
        · assumption
        · exact absurd h (by simp)
  · intro h
    rw [if_neg, if_neg, if_pos h]
    · intro hli
      rw [isListItemB_of_blank h] at hli
      exact absurd hli (by simp)
    · intro hh
      rw [isHeadingB_of_blank h] at hh
      exact absurd hh (by simp)

theorem lineClass_eq_o {l : List Char} : lineClass l = LC.o ↔
    (isHeadingB l = false ∧ isListItemB l = false ∧ (jsTrim l).isEmpty = false) := by
  rw [lineClass]
  constructor
  · intro h
    split at h
    · exact absurd h (by simp)
    · split at h
      · exact absurd h (by simp)
      · split at h
        · exact absurd h (by simp)
        · rename_i h1 h2 h3
          exact ⟨Bool.eq_false_iff.mpr h1, Bool.eq_false_iff.mpr h2, Bool.eq_false_iff.mpr h3⟩
  · rintro ⟨h1, h2, h3⟩
    rw [if_neg (by simp [h1]), if_neg (by simp [h2]), if_neg (by simp [h3])]

theorem lineClass_trimStart (l : List Char) : lineClass (jsTrimStart l) = lineClass l := by
  rw [lineClass, lineClass, isHeadingB, isHeadingB, isListItemB, isListItemB,
    jsTrim_jsTrimStart]
  rw [show jsTrimStart l = l.dropWhile isWS from rfl, List.dropWhile_idempotent]

/-! ## Stored-line classification -/

theorem blank_nil_of_trimEnd {l : List Char} (hfix : jsTrimEnd l = l)
    (hb : (jsTrim l).isEmpty = true) : l = [] := by
  rw [List.isEmpty_iff, jsTrim_nil_iff] at hb
  rw [← hfix]
  exact jsTrimEnd_nil_iff.mpr hb

theorem lineClass_trimEnd_of_heading {raw : List Char} (h : isHeadingB raw = true) :
    lineClass (jsTrimEnd raw) = LC.h ∨ lineClass (jsTrimEnd raw) = LC.o := by
  cases hh : isHeadingB (jsTrimEnd raw)
  · right
    rw [lineClass_eq_o]
    refine ⟨hh, ?_, ?_⟩
    · cases hli : isListItemB (jsTrimEnd raw)
      · rfl
      · have := isListItemB_pre (jsTrimEnd_pre raw) hli
        rw [not_list_of_heading h] at this
        exact absurd this (by simp)
    · rw [jsTrim_jsTrimEnd]
      exact nonblank_of_heading h
  · left
    exact lineClass_eq_h.mpr hh

theorem lineClass_trimEnd_of_list {raw : List Char} (h : isListItemB raw = true) :
    lineClass (jsTrimEnd raw) = LC.li ∨ lineClass (jsTrimEnd raw) = LC.o := by
  cases hli : isListItemB (jsTrimEnd raw)
  · right
    rw [lineClass_eq_o]
    refine ⟨?_, hli, ?_⟩
    · cases hh : isHeadingB (jsTrimEnd raw)
      · rfl
      · have := isHeadingB_pre (jsTrimEnd_pre raw) hh
        rw [not_list_of_heading this] at h
        exact absurd h (by simp)
    · rw [jsTrim_jsTrimEnd]
      exact nonblank_of_listItem h
  · left
    exact lineClass_eq_li.mpr hli

theorem lineClass_trimEnd_of_other {raw : List Char} (h1 : isHeadingB raw = false)
    (h2 : isListItemB raw = false) (h3 : (jsTrim raw).isEmpty = false) :
    lineClass (jsTrimEnd raw) = LC.o := by
  rw [lineClass_eq_o]
  refine ⟨?_, ?_, ?_⟩
  · cases hh : isHeadingB (jsTrimEnd raw)
    · rfl
    · rw [isHeadingB_pre (jsTrimEnd_pre raw) hh] at h1
      exact absurd h1 (by simp)
  · cases hli : isListItemB (jsTrimEnd raw)
    · rfl
    · rw [isListItemB_pre (jsTrimEnd_pre raw) hli] at h2
      exact absurd h2 (by simp)
  · rw [jsTrim_jsTrimEnd]
    exact h3

theorem nonblank_trimEnd {raw : List Char} (h : (jsTrim raw).isEmpty = false) :
    (jsTrim (jsTrimEnd raw)).isEmpty = false := by
  rw [jsTrim_jsTrimEnd]
  exact h

/-! ## Buffer window predicates (accumulator order: newest line first) -/

/-- Every line the loop stores is already right-trimmed and free of
`\n`. -/
def GoodLine (l : List Char) : Prop := jsTrimEnd l = l ∧ '\n' ∉ l

theorem GoodLine_nil : GoodLine [] := ⟨rfl, by simp⟩

theorem GoodLine_stored {raw : List Char} (h : '\n' ∉ raw) : GoodLine (jsTrimEnd raw) :=
  ⟨jsTrimEnd_idem raw, fun hm => h ((jsTrimEnd_pre raw).subset hm)⟩

theorem blankB_nil : blankB ([] : List Char) = true := rfl

theorem nil_of_blank_good {l : List Char} (hg : GoodLine l) (hb : blankB l = true) : l = [] :=
  blank_nil_of_trimEnd hg.1 hb

theorem ne_nil_of_nonblank {l : List Char} (h : blankB l = false) : l ≠ [] := by
  intro he
  rw [he, blankB_nil] at h
  exact absurd h (by simp)

theorem lineClass_nil : lineClass ([] : List Char) = LC.b := lineClass_eq_b.mpr rfl

theorem blankB_trimEnd (raw : List Char) : blankB (jsTrimEnd raw) = blankB raw := by
  rw [blankB, blankB, jsTrim_jsTrimEnd]

theorem blankB_trimStart (raw : List Char) : blankB (jsTrimStart raw) = blankB raw := by
  rw [blankB, blankB, jsTrim_jsTrimStart]

theorem nonblank_of_class_ne_b {l : List Char} (h : lineClass l ≠ LC.b) :
    blankB l = false := by
  cases hb : blankB l
  · rfl
  · exact absurd (lineClass_eq_b.mpr hb) h

theorem class_b_of_blank {l : List Char} (h : blankB l = true) : lineClass l = LC.b :=
  lineClass_eq_b.mpr h

/-- Adjacent pair in the reversed buffer, `x` the newer line: no two
adjacent blanks; a heading is directly followed only by a blank
(`y` heading, `x` above it); a heading is directly preceded only by a
blank. -/
def okPair (x y : List Char) : Prop :=
  ¬(x = [] ∧ y = []) ∧ (lineClass y = LC.h → x = []) ∧ (lineClass x = LC.h → y = [])

def PairsOK : List (List Char) → Prop
  | x :: y :: rest => okPair x y ∧ PairsOK (y :: rest)
  | _ => True

/-- No `list item, blank, list item` window (`x` the newest). -/
def okTriple (x y z : List Char) : Prop :=
  ¬(lineClass x = LC.li ∧ y = [] ∧ lineClass z = LC.li)

def TriplesOK : List (List Char) → Prop
  | x :: y :: z :: rest => okTriple x y z ∧ TriplesOK (y :: z :: rest)
  | _ => True

/-- No list item directly followed by ordinary text (`x` the newer). -/
def okLiO (x y : List Char) : Prop := ¬(lineClass y = LC.li ∧ lineClass x = LC.o)

def LiOOK : List (List Char) → Prop
  | x :: y :: rest => okLiO x y ∧ LiOOK (y :: rest)
  | _ => True

theorem PairsOK_tail : ∀ {x : List Char} {acc : List (List Char)},
    PairsOK (x :: acc) → PairsOK acc := by
  intro x acc h
  cases acc with
  | nil => trivial
  | cons y rest => exact h.2

theorem PairsOK_cons {x : List Char} {acc : List (List Char)} (h : PairsOK acc)
    (hp : ∀ y rest, acc = y :: rest → okPair x y) : PairsOK (x :: acc) := by
  cases acc with
  | nil => trivial
  | cons y rest => exact ⟨hp y rest rfl, h⟩

theorem PairsOK_dropWhile {p : List Char → Bool} :
    ∀ {acc : List (List Char)}, PairsOK acc → PairsOK (acc.dropWhile p) := by
  intro acc
  induction acc with
  | nil => intro h; trivial
  | cons x rest ih =>
    intro h
    rw [List.dropWhile_cons]
    split
    · exact ih (PairsOK_tail h)
    · exact h

theorem TriplesOK_tail : ∀ {x : List Char} {acc : List (List Char)},
    TriplesOK (x :: acc) → TriplesOK acc := by
  intro x acc h
  match acc with
  | [] => trivial
  | [y] => trivial
  | y :: z :: rest => exact h.2

theorem TriplesOK_cons {x : List Char} {acc : List (List Char)} (h : TriplesOK acc)
    (ht : ∀ y z rest, acc = y :: z :: rest → okTriple x y z) : TriplesOK (x :: acc) := by
  match acc with
  | [] => trivial
  | [y] => trivial
  | y :: z :: rest => exact ⟨ht y z rest rfl, h⟩

theorem TriplesOK_dropWhile {p : List Char → Bool} :
    ∀ {acc : List (List Char)}, TriplesOK acc → TriplesOK (acc.dropWhile p) := by
  intro acc
  induction acc with
  | nil => intro h; trivial
  | cons x rest ih =>
    intro h
    rw [List.dropWhile_cons]
    split
    · exact ih (TriplesOK_tail h)
    · exact h

theorem LiOOK_tail : ∀ {x : List Char} {acc : List (List Char)},
    LiOOK (x :: acc) → LiOOK acc := by
  intro x acc h
  cases acc with
  | nil => trivial
  | cons y rest => exact h.2

theorem LiOOK_cons {x : List Char} {acc : List (List Char)} (h : LiOOK acc)
    (hp : ∀ y rest, acc = y :: rest → okLiO x y) : LiOOK (x :: acc) := by
  cases acc with
  | nil => trivial
  | cons y rest => exact ⟨hp y rest rfl, h⟩

theorem LiOOK_dropWhile {p : List Char → Bool} :
    ∀ {acc : List (List Char)}, LiOOK acc → LiOOK (acc.dropWhile p) := by
  intro acc
  induction acc with
  | nil => intro h; trivial
  | cons x rest ih =>
    intro h
    rw [List.dropWhile_cons]
    split
    · exact ih (LiOOK_tail h)
    · exact h

theorem filter_dropWhile_blank : ∀ (acc : List (List Char)),
    (acc.dropWhile blankB).filter (fun l => !blankB l) =
      acc.filter (fun l => !blankB l) := by
  intro acc
  induction acc with
  | nil => rfl
  | cons x rest ih =>
    rw [List.dropWhile_cons]
    cases hb : blankB x with
    | true =>
      rw [if_pos rfl, ih, List.filter_cons, if_neg (by simp [hb])]
    | false =>
      rw [if_neg (by simp)]

theorem dropWhile_blank_cons_nonblank {x : List Char} {acc : List (List Char)}
    (hx : blankB x = false) : (x :: acc).dropWhile blankB = x :: acc := by
  rw [List.dropWhile_cons, if_neg (by simp [hx])]

/-- Relation between `lastMeaningfulType` and the first non-blank line
of the buffer: when the last meaningful line was a list item, the first
non-blank stored line is not heading-classified; and a list-classified
first non-blank stored line forces `lastMeaningfulType = list`. -/
def lastRel (acc : List (List Char)) (lastT : Option MType) : Prop :=
  (lastT = some MType.list →
    ∃ nb rest, acc.dropWhile blankB = nb :: rest ∧ lineClass nb ≠ LC.h) ∧
  (∀ nb rest, acc.dropWhile blankB = nb :: rest → lineClass nb = LC.li →
    lastT = some MType.list)

/-- When the newest stored line is heading-classified, the next input
line (if any) is blank: the heading branch has already inserted the
trailing blank whenever the lookahead saw non-blank content. -/
def HeadH (acc lines : List (List Char)) : Prop :=
  ∀ x, acc.head? = some x → lineClass x = LC.h →
    ∀ n, lines.head? = some n → blankB n = true

/-! ## Push lemmas for the buffer -/

theorem pushBlank_inv {acc : List (List Char)}
    (hG : ∀ l ∈ acc, GoodLine l) (hP : PairsOK acc) (hT : TriplesOK acc)
    (hhd : ∀ hd t, acc = hd :: t → blankB hd = false) :
    (∀ l ∈ ([] : List Char) :: acc, GoodLine l) ∧ PairsOK ([] :: acc) ∧
      TriplesOK ([] :: acc) ∧ (LiOOK acc → LiOOK ([] :: acc)) := by
  refine ⟨?_, ?_, ?_, ?_⟩
  · intro l hl
    rcases List.mem_cons.mp hl with hh | hh
    · rw [hh]
      exact GoodLine_nil
    · exact hG l hh
  · refine PairsOK_cons hP ?_
    intro y t heq
    refine ⟨?_, fun _ => rfl, ?_⟩
    · rintro ⟨-, hy⟩
      exact ne_nil_of_nonblank (hhd y t heq) hy
    · intro hcx
      rw [lineClass_nil] at hcx
      exact absurd hcx (by decide)
  · refine TriplesOK_cons hT ?_
    intro y z t heq
    rintro ⟨hx, -, -⟩
    rw [lineClass_nil] at hx
    exact absurd hx (by decide)
  · intro hL
    refine LiOOK_cons hL ?_
    intro y t heq
    rintro ⟨-, hx⟩
    rw [lineClass_nil] at hx
    exact absurd hx (by decide)

theorem pushLine_inv {x : List Char} {acc : List (List Char)}
    (hxg : GoodLine x) (hxnb : blankB x = false)
    (hG : ∀ l ∈ acc, GoodLine l) (hP : PairsOK acc) (hT : TriplesOK acc)
    (c1 : ∀ hd t, acc = hd :: t → lineClass hd ≠ LC.h)
    (c2 : lineClass x = LC.h → ∀ hd t, acc = hd :: t → hd = [])
    (c3 : lineClass x = LC.li → ∀ hd z t, acc = hd :: z :: t → hd = [] →
      lineClass z ≠ LC.li) :
    (∀ l ∈ x :: acc, GoodLine l) ∧ PairsOK (x :: acc) ∧ TriplesOK (x :: acc) := by
  refine ⟨?_, ?_, ?_⟩
  · intro l hl
    rcases List.mem_cons.mp hl with hh | hh
    · rw [hh]
      exact hxg
    · exact hG l hh
  · refine PairsOK_cons hP ?_
    intro y t heq
    refine ⟨?_, ?_, ?_⟩
    · rintro ⟨hx0, -⟩
      exact ne_nil_of_nonblank hxnb hx0
    · intro hcy
      exact absurd hcy (c1 y t heq)
    · intro hcx
      exact c2 hcx y t heq
  · refine TriplesOK_cons hT ?_
    intro y z t heq
    rintro ⟨hcx, hy0, hcz⟩
    exact c3 hcx y z t heq hy0 hcz

theorem pushLine_lio {x : List Char} {acc : List (List Char)}
    (c4 : ∀ hd t, acc = hd :: t → lineClass hd = LC.li → lineClass x ≠ LC.o)
    (hL : LiOOK acc) : LiOOK (x :: acc) := by
  refine LiOOK_cons hL ?_
  intro y t heq
  rintro ⟨hy, hx⟩
  exact c4 y t heq hy hx

/-! ## Pad lemmas -/

theorem lastRel_of_dropWhile_eq {acc acc2 : List (List Char)} {lastT : Option MType}
    (h : acc2.dropWhile blankB = acc.dropWhile blankB) (hR : lastRel acc lastT) :
    lastRel acc2 lastT := by
  refine ⟨fun hl => ?_, fun nb r hnr => hR.2 nb r (by rw [← h]; exact hnr)⟩
  obtain ⟨nb, r, hd, hc⟩ := hR.1 hl
  exact ⟨nb, r, by rw [h]; exact hd, hc⟩

theorem dropWhile_head_nonblank {acc : List (List Char)} {nb : List Char}
    {r : List (List Char)} (h : acc.dropWhile blankB = nb :: r) : blankB nb = false := by
  have hx := List.head?_dropWhile_not blankB acc
  rw [h, List.head?_cons] at hx
  exact hx

theorem padded_inv {acc : List (List Char)}
    (hG : ∀ l ∈ acc, GoodLine l) (hP : PairsOK acc) (hT : TriplesOK acc) :
    (∀ l ∈ padded acc, GoodLine l) ∧ PairsOK (padded acc) ∧ TriplesOK (padded acc) ∧
      (LiOOK acc → LiOOK (padded acc)) ∧
      (padded acc).filter (fun l => !blankB l) = acc.filter (fun l => !blankB l) ∧
      (padded acc).dropWhile blankB = acc.dropWhile blankB ∧
      (padded acc = [] ∨ ∃ t, padded acc = [] :: t) := by
  rcases acc with _ | ⟨hd, tl⟩
  · exact ⟨hG, hP, hT, fun h => h, rfl, rfl, Or.inl rfl⟩
  · cases hbhd : blankB hd with
    | true =>
      have hpd : padded (hd :: tl) = hd :: tl := by
        rw [padded, headNonblankB, hbhd]
        rfl
      have hhd0 : hd = [] := nil_of_blank_good (hG hd (List.mem_cons_self _ _)) hbhd
      rw [hpd]
      exact ⟨hG, hP, hT, fun h => h, rfl, rfl, Or.inr ⟨tl, by rw [hhd0]⟩⟩
    | false =>
      have hpd : padded (hd :: tl) = [] :: hd :: tl := by
        rw [padded, headNonblankB, hbhd]
        rfl
      rw [hpd]
      obtain ⟨g, p, t, lio⟩ := pushBlank_inv hG hP hT (fun hd' t' heq => by
        obtain ⟨rfl, -⟩ := List.cons.inj heq
        exact hbhd)
      refine ⟨g, p, t, lio, ?_, ?_, Or.inr ⟨hd :: tl, rfl⟩⟩
      · rw [List.filter_cons, if_neg (by simp [blankB_nil])]
      · rw [List.dropWhile_cons, if_pos (by simp [blankB_nil])]

theorem paddedB_inv {acc : List (List Char)}
    (hG : ∀ l ∈ acc, GoodLine l) (hP : PairsOK acc) (hT : TriplesOK acc) :
    (∀ l ∈ paddedB acc, GoodLine l) ∧ PairsOK (paddedB acc) ∧ TriplesOK (paddedB acc) ∧
      (LiOOK acc → LiOOK (paddedB acc)) ∧
      (paddedB acc).filter (fun l => !blankB l) = acc.filter (fun l => !blankB l) ∧
      (paddedB acc).dropWhile blankB = acc.dropWhile blankB ∧
      (∃ t, paddedB acc = [] :: t) := by
  rcases acc with _ | ⟨hd, tl⟩
  · refine ⟨?_, trivial, trivial, fun _ => trivial, ?_, ?_, ⟨[], rfl⟩⟩
    · intro l hl
      rcases List.mem_cons.mp hl with hh | hh
      · rw [hh]
        exact GoodLine_nil
      · cases hh
    · rw [show paddedB [] = [[]] from rfl, List.filter_cons, if_neg (by simp [blankB_nil])]
    · rw [show paddedB [] = [[]] from rfl, List.dropWhile_cons, if_pos (by simp [blankB_nil])]
  · have hpB : paddedB (hd :: tl) = padded (hd :: tl) := rfl
    rw [hpB]
    obtain ⟨g, p, t, lio, f, d, shape⟩ := padded_inv hG hP hT
    refine ⟨g, p, t, lio, f, d, ?_⟩
    rcases shape with h0 | hs
    · rw [padded, headNonblankB] at h0
      split at h0 <;> cases h0
    · exact hs

/-! ## The main invariant of the line loop -/

/-- Lines keep their classification when their trailing whitespace is
removed.  This fails exactly for lines whose required `\s+` after the
heading/list marker consists only of trailing whitespace. -/
def classStable (l : List Char) : Prop :=
  isHeadingB (jsTrimEnd l) = isHeadingB l ∧ isListItemB (jsTrimEnd l) = isListItemB l

theorem procLines_main :
    ∀ (lines acc : List (List Char)) (lastT : Option MType),
      (∀ l ∈ lines, '\n' ∉ l) →
      (∀ l ∈ acc, GoodLine l) → PairsOK acc → TriplesOK acc →
      lastRel acc lastT → HeadH acc lines →
      (∀ l ∈ procLines lines acc lastT, GoodLine l) ∧
      PairsOK (procLines lines acc lastT) ∧
      TriplesOK (procLines lines acc lastT) ∧
      (procLines lines acc lastT).filter (fun l => !blankB l) =
        ((lines.filter (fun l => !blankB l)).map jsTrimEnd).reverse ++
          acc.filter (fun l => !blankB l) ∧
      ((∀ l ∈ lines, classStable l) → LiOOK acc →
        LiOOK (procLines lines acc lastT)) := by
  intro lines
  induction lines with
  | nil =>
    intro acc lastT hnl hG hP hT hR hH
    exact ⟨hG, hP, hT, by simp [procLines], fun _ hL => hL⟩
  | cons raw rest ih =>
    intro acc lastT hnl hG hP hT hR hH
    have hnlr : '\n' ∉ raw := hnl raw (List.mem_cons_self _ _)
    have hnl2 : ∀ l ∈ rest, '\n' ∉ l := fun l hl => hnl l (List.mem_cons_of_mem _ hl)
    have hstg : GoodLine (jsTrimEnd raw) := GoodLine_stored hnlr
    by_cases hh : isHeadingB raw = true
    · -- heading branch
      simp only [procLines]
      rw [if_pos hh]
      obtain ⟨hGB, hPB, hTB, hLB, hFB, hDB, hShape⟩ := padded_inv hG hP hT
      have hstnb : blankB (jsTrimEnd raw) = false := by
        rw [blankB_trimEnd]
        exact nonblank_of_heading hh
      have hstcls := lineClass_trimEnd_of_heading hh
      have hstne_li : lineClass (jsTrimEnd raw) ≠ LC.li := by
        rcases hstcls with hc | hc <;> rw [hc] <;> decide
      have hc1 : ∀ hd t, padded acc = hd :: t → lineClass hd ≠ LC.h := by
        intro hd t heq
        rcases hShape with h0 | ⟨t', ht'⟩
        · rw [h0] at heq
          cases heq
        · rw [ht'] at heq
          obtain ⟨rfl, -⟩ := List.cons.inj heq
          rw [lineClass_nil]
          decide
      have hc2 : lineClass (jsTrimEnd raw) = LC.h →
          ∀ hd t, padded acc = hd :: t → hd = [] := by
        intro _ hd t heq
        rcases hShape with h0 | ⟨t', ht'⟩
        · rw [h0] at heq
          cases heq
        · rw [ht'] at heq
          exact ((List.cons.inj heq).1).symm
      obtain ⟨hG2, hP2, hT2⟩ := pushLine_inv hstg hstnb hGB hPB hTB hc1 hc2
        (fun hli2 => absurd hli2 hstne_li)
      have hR2 : lastRel (jsTrimEnd raw :: padded acc) (some MType.heading) := by
        constructor
        · intro hl
          simp at hl
        · intro nb r hd hcls
          rw [dropWhile_blank_cons_nonblank hstnb] at hd
          obtain ⟨rfl, -⟩ := List.cons.inj hd
          exact absurd hcls hstne_li
      have hF2 : (jsTrimEnd raw :: padded acc).filter (fun l => !blankB l) =
          jsTrimEnd raw :: acc.filter (fun l => !blankB l) := by
        rw [List.filter_cons, if_pos (by simp [hstnb]), hFB]
      have hLio2 : LiOOK acc → LiOOK (jsTrimEnd raw :: padded acc) := by
        intro hL
        refine pushLine_lio ?_ (hLB hL)
        intro hd t heq hdli
        rcases hShape with h0 | ⟨t', ht'⟩
        · rw [h0] at heq
          cases heq
        · rw [ht'] at heq
          obtain ⟨rfl, -⟩ := List.cons.inj heq
          rw [lineClass_nil] at hdli
          exact absurd hdli (by decide)
      have hFraw : ((raw :: rest).filter (fun l => !blankB l)).map jsTrimEnd =
          jsTrimEnd raw :: (rest.filter (fun l => !blankB l)).map jsTrimEnd := by
        rw [List.filter_cons, if_pos (by simp [show blankB raw = false from nonblank_of_heading hh]),
          List.map_cons]
      cases hnx : headNonblankB rest with
      | false =>
        rw [if_neg (by simp)]
        have hH2 : HeadH (jsTrimEnd raw :: padded acc) rest := by
          intro x hx hcx n hn
          rcases rest with _ | ⟨n0, t0⟩
          · cases hn
          · rw [List.head?_cons] at hn
            obtain rfl := Option.some.inj hn
            rw [headNonblankB] at hnx
            simpa using hnx
        obtain IH := ih (jsTrimEnd raw :: padded acc) (some MType.heading)
          hnl2 hG2 hP2 hT2 hR2 hH2
        refine ⟨IH.1, IH.2.1, IH.2.2.1, ?_, ?_⟩
        · rw [IH.2.2.2.1, hF2, hFraw, List.reverse_cons, List.append_assoc]
          rfl
        · intro hstab hL
          exact IH.2.2.2.2 (fun l hl => hstab l (List.mem_cons_of_mem _ hl)) (hLio2 hL)
      | true =>
        rw [if_pos rfl]
        obtain ⟨hG3, hP3, hT3, hLio3⟩ := pushBlank_inv hG2 hP2 hT2 (fun hd t heq => by
          obtain ⟨rfl, -⟩ := List.cons.inj heq
          exact hstnb)
        have hR3 : lastRel ([] :: jsTrimEnd raw :: padded acc) (some MType.heading) := by
          refine lastRel_of_dropWhile_eq ?_ hR2
          rw [List.dropWhile_cons, if_pos (by simp [blankB_nil])]
        have hH3 : HeadH ([] :: jsTrimEnd raw :: padded acc) rest := by
          intro x hx hcx n hn
          rw [List.head?_cons] at hx
          obtain rfl := Option.some.inj hx
          rw [lineClass_nil] at hcx
          exact absurd hcx (by decide)
        obtain IH := ih ([] :: jsTrimEnd raw :: padded acc) (some MType.heading)
          hnl2 hG3 hP3 hT3 hR3 hH3
        refine ⟨IH.1, IH.2.1, IH.2.2.1, ?_, ?_⟩
        · rw [IH.2.2.2.1, List.filter_cons (x := ([] : List Char)),
            if_neg (by simp [blankB_nil]), hF2, hFraw, List.reverse_cons, List.append_assoc]
          rfl
        · intro hstab hL
          refine IH.2.2.2.2 (fun l hl => hstab l (List.mem_cons_of_mem _ hl)) ?_
          refine LiOOK_cons (hLio2 hL) ?_
          intro y t heq
          rintro ⟨-, hx⟩
          rw [lineClass_nil] at hx
          exact absurd hx (by decide)
    · by_cases hli : isListItemB raw = true
      · -- list branch
        simp only [procLines]
        rw [if_neg hh, if_pos hli]
        have hstnb : blankB (jsTrimEnd raw) = false := by
          rw [blankB_trimEnd]
          exact nonblank_of_listItem hli
        have hstcls := lineClass_trimEnd_of_list hli
        have hstne_h : lineClass (jsTrimEnd raw) ≠ LC.h := by
          rcases hstcls with hc | hc <;> rw [hc] <;> decide
        have hrawnb : blankB raw = false := nonblank_of_listItem hli
        have hH2gen : ∀ acc2 : List (List Char), HeadH (jsTrimEnd raw :: acc2) rest := by
          intro acc2 x hx hcx n hn
          rw [List.head?_cons] at hx
          obtain rfl := Option.some.inj hx
          exact absurd hcx hstne_h
        have hR2gen : ∀ acc2 : List (List Char),
            lastRel (jsTrimEnd raw :: acc2) (some MType.list) := by
          intro acc2
          constructor
          · intro _
            exact ⟨jsTrimEnd raw, acc2, dropWhile_blank_cons_nonblank hstnb, hstne_h⟩
          · intro _ _ _ _
            rfl
        have hFraw : ((raw :: rest).filter (fun l => !blankB l)).map jsTrimEnd =
            jsTrimEnd raw :: (rest.filter (fun l => !blankB l)).map jsTrimEnd := by
          rw [List.filter_cons, if_pos (by simp [hrawnb]), List.map_cons]
        by_cases hlt : lastT = some MType.list
        · -- pop the trailing blank run
          rw [if_pos hlt]
          obtain ⟨nb, r, hdrop, hnbh⟩ := hR.1 hlt
          rw [hdrop]
          have hnbnb : blankB nb = false := dropWhile_head_nonblank hdrop
          have hGd : ∀ l ∈ nb :: r, GoodLine l := by
            rw [← hdrop]
            intro l hl
            exact hG l ((List.dropWhile_suffix _).subset hl)
          have hPd : PairsOK (nb :: r) := hdrop ▸ PairsOK_dropWhile hP
          have hTd : TriplesOK (nb :: r) := hdrop ▸ TriplesOK_dropWhile hT
          obtain ⟨hG2, hP2, hT2⟩ := pushLine_inv hstg hstnb hGd hPd hTd
            (fun hd t heq => by
              obtain ⟨rfl, -⟩ := List.cons.inj heq
              exact hnbh)
            (fun hch => absurd hch hstne_h)
            (fun _ hd z t heq h0 => by
              obtain ⟨rfl, -⟩ := List.cons.inj heq
              exact absurd h0 (ne_nil_of_nonblank hnbnb))
          obtain IH := ih (jsTrimEnd raw :: nb :: r) (some MType.list)
            hnl2 hG2 hP2 hT2 (hR2gen _) (hH2gen _)
          refine ⟨IH.1, IH.2.1, IH.2.2.1, ?_, ?_⟩
          · rw [IH.2.2.2.1, List.filter_cons (x := jsTrimEnd raw), if_pos (by simp [hstnb]),
              ← hdrop, filter_dropWhile_blank, hFraw, List.reverse_cons, List.append_assoc]
            rfl
          · intro hstab hL
            have hstabr := hstab raw (List.mem_cons_self _ _)
            have hstli : lineClass (jsTrimEnd raw) = LC.li :=
              lineClass_eq_li.mpr (by rw [hstabr.2]; exact hli)
            refine IH.2.2.2.2 (fun l hl => hstab l (List.mem_cons_of_mem _ hl)) ?_
            refine pushLine_lio ?_ (hdrop ▸ LiOOK_dropWhile hL)
            intro hd t heq hdli
            rw [hstli]
            decide
        · -- no pop
          rw [if_neg hlt]
          have hc1 : ∀ hd t, acc = hd :: t → lineClass hd ≠ LC.h := by
            intro hd t heq hch
            have hblank := hH hd (by rw [heq]; rfl) hch raw rfl
            rw [hrawnb] at hblank
            cases hblank
          obtain ⟨hG2, hP2, hT2⟩ := pushLine_inv hstg hstnb hG hP hT hc1
            (fun hch => absurd hch hstne_h)
            (fun _ hd z t heq h0 hzli => by
              subst h0
              have hznb : blankB z = false :=
                nonblank_of_class_ne_b (by rw [hzli]; decide)
              have hdw : acc.dropWhile blankB = z :: t := by
                rw [heq, List.dropWhile_cons, if_pos (by simp [blankB_nil]),
                  dropWhile_blank_cons_nonblank hznb]
              exact hlt (hR.2 z t hdw hzli))
          obtain IH := ih (jsTrimEnd raw :: acc) (some MType.list)
            hnl2 hG2 hP2 hT2 (hR2gen _) (hH2gen _)
          refine ⟨IH.1, IH.2.1, IH.2.2.1, ?_, ?_⟩
          · rw [IH.2.2.2.1, List.filter_cons (x := jsTrimEnd raw), if_pos (by simp [hstnb]),
              hFraw, List.reverse_cons, List.append_assoc]
            rfl
          · intro hstab hL
            refine IH.2.2.2.2 (fun l hl => hstab l (List.mem_cons_of_mem _ hl)) ?_
            refine pushLine_lio ?_ hL
            intro hd t heq hdli
            have hdnb : blankB hd = false :=
              nonblank_of_class_ne_b (by rw [hdli]; decide)
            have hdw : acc.dropWhile blankB = hd :: t := by
              rw [heq]
              exact dropWhile_blank_cons_nonblank hdnb
            exact absurd (hR.2 hd t hdw hdli) hlt
      · by_cases hb : blankB raw = true
        · -- blank branch
          simp only [procLines]
          rw [if_neg hh, if_neg hli, if_pos hb]
          obtain ⟨hGB, hPB, hTB, hLB, hFB, hDB, hShapeB⟩ := paddedB_inv hG hP hT
          have hR2 := lastRel_of_dropWhile_eq hDB hR
          have hH2 : HeadH (paddedB acc) rest := by
            intro x hx hcx n hn
            obtain ⟨t, ht⟩ := hShapeB
            rw [ht, List.head?_cons] at hx
            obtain rfl := Option.some.inj hx
            rw [lineClass_nil] at hcx
            exact absurd hcx (by decide)
          obtain IH := ih (paddedB acc) lastT hnl2 hGB hPB hTB hR2 hH2
          refine ⟨IH.1, IH.2.1, IH.2.2.1, ?_, ?_⟩
          · rw [IH.2.2.2.1, hFB, List.filter_cons, if_neg (by simp [hb])]
          · intro hstab hL
            exact IH.2.2.2.2 (fun l hl => hstab l (List.mem_cons_of_mem _ hl)) (hLB hL)
        · -- other branch
          simp only [procLines]
          rw [if_neg hh, if_neg hli, if_neg hb]
          have hb' : blankB raw = false := by
            cases h2 : blankB raw
            · rfl
            · exact absurd h2 hb
          have hh' : isHeadingB raw = false := by
            cases h2 : isHeadingB raw
            · rfl
            · exact absurd h2 hh
          have hli' : isListItemB raw = false := by
            cases h2 : isListItemB raw
            · rfl
            · exact absurd h2 hli
          have hstcls : lineClass (jsTrimEnd raw) = LC.o :=
            lineClass_trimEnd_of_other hh' hli' hb'
          have hstnb : blankB (jsTrimEnd raw) = false := by
            rw [blankB_trimEnd]
            exact hb'
          have hH2gen : ∀ acc2 : List (List Char), HeadH (jsTrimEnd raw :: acc2) rest := by
            intro acc2 x hx hcx n hn
            rw [List.head?_cons] at hx
            obtain rfl := Option.some.inj hx
            rw [hstcls] at hcx
            exact absurd hcx (by decide)
          have hR2gen : ∀ acc2 : List (List Char),
              lastRel (jsTrimEnd raw :: acc2) (some MType.other) := by
            intro acc2
            constructor
            · intro hl
              simp at hl
            · intro nb r hd hcls
              rw [dropWhile_blank_cons_nonblank hstnb] at hd
              obtain ⟨rfl, -⟩ := List.cons.inj hd
              rw [hstcls] at hcls
              exact absurd hcls (by decide)
          have hFraw : ((raw :: rest).filter (fun l => !blankB l)).map jsTrimEnd =
              jsTrimEnd raw :: (rest.filter (fun l => !blankB l)).map jsTrimEnd := by
            rw [List.filter_cons, if_pos (by simp [hb']), List.map_cons]
          cases hcond : (decide (lastT = some MType.list) && headNonblankB acc) with
          | true =>
            rw [if_pos rfl]
            simp only [Bool.and_eq_true, decide_eq_true_eq] at hcond
            obtain ⟨hltl, hhd⟩ := hcond
            have hhdnb : ∀ hd t, acc = hd :: t → blankB hd = false := by
              intro hd t heq
              rw [heq, headNonblankB] at hhd
              simpa using hhd
            obtain ⟨hGb, hPb, hTb, hLiob⟩ := pushBlank_inv hG hP hT hhdnb
            obtain ⟨hG2, hP2, hT2⟩ := pushLine_inv hstg hstnb hGb hPb hTb
              (fun hd t heq => by
                obtain ⟨rfl, -⟩ := List.cons.inj heq
                rw [lineClass_nil]
                decide)
              (fun hch => by
                rw [hstcls] at hch
                exact absurd hch (by decide))
              (fun hch => by
                rw [hstcls] at hch
                exact absurd hch (by decide))
            obtain IH := ih (jsTrimEnd raw :: [] :: acc) (some MType.other)
              hnl2 hG2 hP2 hT2 (hR2gen _) (hH2gen _)
            refine ⟨IH.1, IH.2.1, IH.2.2.1, ?_, ?_⟩
            · rw [IH.2.2.2.1, List.filter_cons (x := jsTrimEnd raw), if_pos (by simp [hstnb]),
                List.filter_cons (x := ([] : List Char)), if_neg (by simp [blankB_nil]),
                hFraw, List.reverse_cons, List.append_assoc]
              rfl
            · intro hstab hL
              refine IH.2.2.2.2 (fun l hl => hstab l (List.mem_cons_of_mem _ hl)) ?_
              refine pushLine_lio ?_ (hLiob hL)
              intro hd t heq hdli
              obtain ⟨rfl, -⟩ := List.cons.inj heq
              rw [lineClass_nil] at hdli
              exact absurd hdli (by decide)
          | false =>
            rw [if_neg (by simp)]
            have hc1 : ∀ hd t, acc = hd :: t → lineClass hd ≠ LC.h := by
              intro hd t heq hch
              have hblank := hH hd (by rw [heq]; rfl) hch raw rfl
              rw [hb'] at hblank
              cases hblank
            obtain ⟨hG2, hP2, hT2⟩ := pushLine_inv hstg hstnb hG hP hT hc1
              (fun hch => by
                rw [hstcls] at hch
                exact absurd hch (by decide))
              (fun hch => by
                rw [hstcls] at hch
                exact absurd hch (by decide))
            obtain IH := ih (jsTrimEnd raw :: acc) (some MType.other)
              hnl2 hG2 hP2 hT2 (hR2gen _) (hH2gen _)
            refine ⟨IH.1, IH.2.1, IH.2.2.1, ?_, ?_⟩
            · rw [IH.2.2.2.1, List.filter_cons (x := jsTrimEnd raw), if_pos (by simp [hstnb]),
                hFraw, List.reverse_cons, List.append_assoc]
              rfl
            · intro hstab hL
              refine IH.2.2.2.2 (fun l hl => hstab l (List.mem_cons_of_mem _ hl)) ?_
              refine pushLine_lio ?_ hL
              intro hd t heq hdli
              have hdnb : blankB hd = false :=
                nonblank_of_class_ne_b (by rw [hdli]; decide)
              have hdw : acc.dropWhile blankB = hd :: t := by
                rw [heq]
                exact dropWhile_blank_cons_nonblank hdnb
              have hltl := hR.2 hd t hdw hdli
              rw [heq, hltl, headNonblankB, hdnb] at hcond
              simp at hcond

/-! ## Buffer-order predicates and the edge cleanup -/

/-- No two adjacent stored blank lines (order-symmetric). -/
def NoAdj : List (List Char) → Prop
  | a :: b :: rest => ¬(a = [] ∧ b = []) ∧ NoAdj (b :: rest)
  | _ => True

theorem NoAdj_of_PairsOK : ∀ {acc : List (List Char)}, PairsOK acc → NoAdj acc := by
  intro acc
  induction acc with
  | nil => intro h; trivial
  | cons x rest ih =>
    intro h
    cases rest with
    | nil => trivial
    | cons y t => exact ⟨h.1.1, ih h.2⟩

theorem NoAdj_tail {x : List Char} {ls : List (List Char)} (h : NoAdj (x :: ls)) :
    NoAdj ls := by
  cases ls with
  | nil => trivial
  | cons y t => exact h.2

theorem NoAdj_append_single {x : List Char} : ∀ {ls : List (List Char)},
    NoAdj ls → (∀ y, ls.getLast? = some y → ¬(y = [] ∧ x = [])) →
    NoAdj (ls ++ [x]) := by
  intro ls
  induction ls with
  | nil => intro _ _; trivial
  | cons a t ih =>
    intro h hl
    cases t with
    | nil =>
      refine ⟨?_, trivial⟩
      rintro ⟨ha, hx⟩
      exact hl a rfl ⟨ha, hx⟩
    | cons b t2 =>
      refine ⟨h.1, ih h.2 ?_⟩
      intro y hy
      exact hl y (by rw [List.getLast?_cons_cons]; exact hy)

theorem NoAdj_reverse : ∀ {ls : List (List Char)}, NoAdj ls → NoAdj ls.reverse := by
  intro ls
  induction ls with
  | nil => intro h; trivial
  | cons a t ih =>
    intro h
    rw [List.reverse_cons]
    refine NoAdj_append_single (ih (NoAdj_tail h)) ?_
    intro y hy
    rintro ⟨hy0, ha0⟩
    cases t with
    | nil => simp at hy
    | cons b t2 =>
      rw [List.getLast?_reverse, List.head?_cons] at hy
      obtain rfl := Option.some.inj hy
      exact h.1 ⟨ha0, hy0⟩

/-- Drop a single leading stored blank (the final `trim` removes it). -/
def dropLeadNil : List (List Char) → List (List Char)
  | [] => []
  | l :: t => if l = [] then t else l :: t

/-- Drop a single trailing stored blank. -/
def dropTrailNil : List (List Char) → List (List Char)
  | [] => []
  | [l] => if l = [] then [] else [l]
  | l :: t1 :: t => l :: dropTrailNil (t1 :: t)

/-- Apply a function to the first line only (the final `trim` removes the
leading whitespace of the first line). -/
def mapHead (f : List Char → List Char) : List (List Char) → List (List Char)
  | [] => []
  | x :: t => f x :: t

/-- The effect of the final `trim` on the joined buffer, at line level. -/
def cleanup (ls : List (List Char)) : List (List Char) :=
  dropTrailNil (mapHead jsTrimStart (dropLeadNil ls))

theorem joinNL_cons (x : List Char) (t : List (List Char)) :
    joinNL (x :: t) = x ++ (match t with | [] => [] | _ :: _ => '\n' :: joinNL t) := by
  cases t with
  | nil => simp [joinNL]
  | cons y t2 => rfl

theorem joinNL_ne_nil {x : List Char} {t : List (List Char)} (hx : x ≠ []) :
    joinNL (x :: t) ≠ [] := by
  rw [joinNL_cons]
  intro h
  exact hx (List.append_eq_nil.mp h).1

/-! ## `ok3` and joining -/

theorem ok3_cons_of_ne {c : Char} {t : List Char} (hc : c ≠ '\n') (ht : ok3 t = true) :
    ok3 (c :: t) = true := by
  match t with
  | [] => rfl
  | [x] => rfl
  | x :: y :: rest =>
    rw [ok3, ht, Bool.and_true]
    simp [hc]

theorem ok3_cons_nl {t : List Char} (ht : ok3 t = true)
    (h2 : t.take 2 ≠ ['\n', '\n']) : ok3 ('\n' :: t) = true := by
  match t with
  | [] => rfl
  | [x] => rfl
  | x :: y :: rest =>
    rw [ok3, ht, Bool.and_true]
    have hxy : ¬(x = '\n' ∧ y = '\n') := by
      rintro ⟨rfl, rfl⟩
      exact h2 rfl
    cases hx : decide (x = '\n') <;> cases hy : decide (y = '\n') <;> simp_all

theorem ok3_of_no_nl : ∀ (l : List Char), '\n' ∉ l → ok3 l = true := by
  intro l
  induction l with
  | nil => intro _; rfl
  | cons c t ih =>
    intro h
    exact ok3_cons_of_ne (fun hc => h (hc ▸ List.mem_cons_self _ _))
      (ih (fun hm => h (List.mem_cons_of_mem _ hm)))

theorem ok3_append_left : ∀ (l s : List Char), '\n' ∉ l → ok3 s = true →
    ok3 (l ++ s) = true := by
  intro l
  induction l with
  | nil => intro s _ hs; exact hs
  | cons c t ih =>
    intro s h hs
    exact ok3_cons_of_ne (fun hc => h (hc ▸ List.mem_cons_self _ _))
      (ih s (fun hm => h (List.mem_cons_of_mem _ hm)) hs)

theorem joinNL_eq_nl_cons : ∀ (ls : List (List Char)) {w : List Char},
    (∀ l ∈ ls, '\n' ∉ l) → joinNL ls = '\n' :: w →
    ∃ t, ls = [] :: t ∧ t ≠ [] ∧ w = joinNL t := by
  intro ls w hnl hj
  match ls with
  | [] => cases hj
  | [l] =>
    rw [show joinNL [l] = l from rfl] at hj
    exact absurd (hj ▸ List.mem_cons_self '\n' w) (hnl l (List.mem_cons_self _ _))
  | l :: t1 :: t2 =>
    rcases l with _ | ⟨c, l2⟩
    · refine ⟨t1 :: t2, rfl, by simp, ?_⟩
      rw [show joinNL ([] :: t1 :: t2) = '\n' :: joinNL (t1 :: t2) from rfl] at hj
      exact (List.cons.inj hj).2.symm
    · rw [show joinNL ((c :: l2) :: t1 :: t2) = (c :: l2) ++ '\n' :: joinNL (t1 :: t2)
        from rfl] at hj
      obtain ⟨hc, -⟩ := List.cons.inj hj
      exact absurd (hc ▸ List.mem_cons_self c l2) (hnl (c :: l2) (List.mem_cons_self _ _))

theorem ok3_joinNL : ∀ {ls : List (List Char)}, (∀ l ∈ ls, '\n' ∉ l) → NoAdj ls →
    ok3 (joinNL ls) = true := by
  intro ls
  induction ls with
  | nil => intro _ _; rfl
  | cons l t ih =>
    intro hnl hadj
    cases t with
    | nil => exact ok3_of_no_nl l (hnl l (List.mem_cons_self _ _))
    | cons t1 t2 =>
      rw [show joinNL (l :: t1 :: t2) = l ++ '\n' :: joinNL (t1 :: t2) from rfl]
      refine ok3_append_left _ _ (hnl l (List.mem_cons_self _ _)) ?_
      have hok : ok3 (joinNL (t1 :: t2)) = true :=
        ih (fun x hx => hnl x (List.mem_cons_of_mem _ hx)) (NoAdj_tail hadj)
      refine ok3_cons_nl hok ?_
      intro h2
      obtain ⟨u, hu⟩ := take2_nn h2
      obtain ⟨t3, ht3, ht3ne, hw⟩ :=
        joinNL_eq_nl_cons (t1 :: t2) (fun x hx => hnl x (List.mem_cons_of_mem _ hx))
          (by rw [hu])
      obtain ⟨ht1, ht2⟩ := List.cons.inj ht3
      subst ht1
      subst ht2
      rcases t2 with _ | ⟨t4, t5⟩
      · exact ht3ne rfl
      · obtain ⟨t6, ht6, -, -⟩ :=
          joinNL_eq_nl_cons (t4 :: t5)
            (fun x hx => hnl x (List.mem_cons_of_mem _ (List.mem_cons_of_mem _ hx)))
            hw.symm
        obtain ⟨ht4, -⟩ := List.cons.inj ht6
        subst ht4
        exact hadj.2.1 ⟨rfl, rfl⟩

/-! ## Trimming a joined buffer, line by line -/

theorem jsTrimStart_append_of_ne_nil {l t : List Char} (h : jsTrimStart l ≠ []) :
    jsTrimStart (l ++ t) = jsTrimStart l ++ t := by
  unfold jsTrimStart at *
  rw [List.dropWhile_append, if_neg (by simpa using h)]

theorem jsTrimEnd_append_of_ne_nil {l t : List Char} (h : jsTrimEnd t ≠ []) :
    jsTrimEnd (l ++ t) = l ++ jsTrimEnd t := by
  have h2 : t.reverse.dropWhile isWS ≠ [] := by
    intro h0
    apply h
    unfold jsTrimEnd
    rw [h0, List.reverse_nil]
  unfold jsTrimEnd
  rw [List.reverse_append, List.dropWhile_append, if_neg (by simpa using h2),
    List.reverse_append, List.reverse_reverse]

theorem jsTrimStart_cons_ws {c : Char} {w : List Char} (h : isWS c = true) :
    jsTrimStart (c :: w) = jsTrimStart w := by
  unfold jsTrimStart
  rw [List.dropWhile_cons, if_pos (by simp [h])]

theorem trimEnd_fixed_last {l : List Char} {c : Char} (hfix : jsTrimEnd l = l)
    (hc : l.getLast? = some c) : isWS c = false := by
  have hrev : l.reverse.dropWhile isWS = l.reverse := by
    have h2 := congrArg List.reverse hfix
    rwa [jsTrimEnd, List.reverse_reverse] at h2
  rcases hrev2 : l.reverse with _ | ⟨d, u⟩
  · rw [List.reverse_eq_nil_iff] at hrev2
    subst hrev2
    cases hc
  · have hd : l.getLast? = some d := by
      rw [← List.head?_reverse, hrev2, List.head?_cons]
    rw [hd] at hc
    obtain rfl := Option.some.inj hc
    rw [hrev2] at hrev
    have h0 := List.dropWhile_eq_self_iff.mp hrev (by simp)
    simpa using h0

theorem dropWhile_head_false {α : Type} {p : α → Bool} :
    ∀ {l : List α} {c : α} {u : List α}, l.dropWhile p = c :: u → p c = false := by
  intro l
  induction l with
  | nil => intro c u h; cases h
  | cons a t ih =>
    intro c u h
    rw [List.dropWhile_cons] at h
    by_cases hpa : p a = true
    · rw [if_pos hpa] at h
      exact ih h
    · rw [if_neg hpa] at h
      obtain ⟨h1, -⟩ := List.cons.inj h
      rw [← h1]
      cases h2 : p a with
      | false => rfl
      | true => exact absurd h2 hpa

theorem jsTrimStart_ne_nil_of_good {l : List Char} (hg : GoodLine l) (hne : l ≠ []) :
    jsTrimStart l ≠ [] := by
  intro h0
  apply hne
  rw [← hg.1]
  exact jsTrimEnd_nil_iff.mpr (List.dropWhile_eq_nil_iff.mp h0)

theorem GoodLine_trimStart {l : List Char} (hg : GoodLine l) : GoodLine (jsTrimStart l) := by
  refine ⟨?_, fun hm => hg.2 ((jsTrimStart_suffix l).subset hm)⟩
  rcases hm : jsTrimStart l with _ | ⟨c, u⟩
  · rfl
  · have hc : isWS c = false := dropWhile_head_false hm
    have hne : jsTrimEnd (c :: u) ≠ [] := by
      intro h0
      rw [jsTrimEnd_nil_iff] at h0
      rw [h0 c (List.mem_cons_self _ _)] at hc
      cases hc
    have hdecomp : l.takeWhile isWS ++ (c :: u) = l := by
      rw [← hm]
      simp [jsTrimStart, List.takeWhile_append_dropWhile]
    have h2 : jsTrimEnd (l.takeWhile isWS ++ (c :: u)) =
        l.takeWhile isWS ++ jsTrimEnd (c :: u) := jsTrimEnd_append_of_ne_nil hne
    rw [hdecomp, hg.1] at h2
    exact (List.append_cancel_left (hdecomp.trans h2)).symm

theorem GoodLine_last_not_cr {l : List Char} (hg : GoodLine l) :
    l.getLast? ≠ some '\r' := by
  intro h0
  have := trimEnd_fixed_last hg.1 h0
  simp [isWS] at this

theorem jsTrimStart_joinNL_nonnil {y : List Char} {t : List (List Char)}
    (hy : jsTrimStart y ≠ []) :
    jsTrimStart (joinNL (y :: t)) = joinNL (jsTrimStart y :: t) := by
  cases t with
  | nil => rfl
  | cons t1 t2 =>
    rw [show joinNL (y :: t1 :: t2) = y ++ '\n' :: joinNL (t1 :: t2) from rfl,
      show joinNL (jsTrimStart y :: t1 :: t2) = jsTrimStart y ++ '\n' :: joinNL (t1 :: t2)
        from rfl]
    exact jsTrimStart_append_of_ne_nil hy

theorem trimStart_joinNL : ∀ {ls : List (List Char)}, (∀ l ∈ ls, GoodLine l) → NoAdj ls →
    jsTrimStart (joinNL ls) = joinNL (mapHead jsTrimStart (dropLeadNil ls)) := by
  intro ls hg hadj
  match ls with
  | [] => rfl
  | [x] =>
    by_cases hx : x = []
    · subst hx
      simp [joinNL, jsTrimStart, dropLeadNil, mapHead]
    · rw [show dropLeadNil [x] = [x] from by simp [dropLeadNil, hx]]
      exact jsTrimStart_joinNL_nonnil
        (jsTrimStart_ne_nil_of_good (hg x (List.mem_cons_self _ _)) hx)
  | x :: t1 :: t2 =>
    by_cases hx : x = []
    · subst hx
      have ht1 : t1 ≠ [] := fun h => hadj.1 ⟨rfl, h⟩
      rw [show joinNL ([] :: t1 :: t2) = '\n' :: joinNL (t1 :: t2) from rfl,
        jsTrimStart_cons_ws (by decide),
        show dropLeadNil ([] :: t1 :: t2) = t1 :: t2 from by simp [dropLeadNil]]
      exact jsTrimStart_joinNL_nonnil
        (jsTrimStart_ne_nil_of_good (hg t1 (List.mem_cons_of_mem _ (List.mem_cons_self _ _)))
          ht1)
    · rw [show dropLeadNil (x :: t1 :: t2) = x :: t1 :: t2 from by simp [dropLeadNil, hx]]
      exact jsTrimStart_joinNL_nonnil
        (jsTrimStart_ne_nil_of_good (hg x (List.mem_cons_self _ _)) hx)

theorem joinNL_eq_nil : ∀ {ls : List (List Char)}, joinNL ls = [] → ls = [] ∨ ls = [[]] := by
  intro ls h
  match ls with
  | [] => exact Or.inl rfl
  | [x] =>
    right
    rw [show joinNL [x] = x from rfl] at h
    rw [h]
  | x :: t1 :: t2 =>
    rw [show joinNL (x :: t1 :: t2) = x ++ '\n' :: joinNL (t1 :: t2) from rfl] at h
    rcases List.append_eq_nil.mp h with ⟨-, h2⟩
    cases h2

theorem dropTrailNil_eq_nil : ∀ {ls : List (List Char)},
    dropTrailNil ls = [] → ls = [] ∨ ls = [[]] := by
  intro ls h
  match ls with
  | [] => exact Or.inl rfl
  | [x] =>
    right
    rw [dropTrailNil] at h
    by_cases hx : x = []
    · rw [hx]
    · rw [if_neg hx] at h
      cases h
  | x :: t1 :: t2 =>
    rw [dropTrailNil] at h
    cases h

theorem trimEnd_joinNL : ∀ {ls : List (List Char)}, (∀ l ∈ ls, GoodLine l) → NoAdj ls →
    jsTrimEnd (joinNL ls) = joinNL (dropTrailNil ls) := by
  intro ls
  induction ls with
  | nil => intro _ _; rfl
  | cons x t ih =>
    intro hg hadj
    cases t with
    | nil =>
      by_cases hx : x = []
      · subst hx
        simp [joinNL, jsTrimEnd, dropTrailNil]
      · rw [show joinNL [x] = x from rfl, (hg x (List.mem_cons_self _ _)).1,
          show dropTrailNil [x] = [x] from by simp [dropTrailNil, hx]]
        rfl
    | cons t1 t2 =>
      have hrest : jsTrimEnd (joinNL (t1 :: t2)) = joinNL (dropTrailNil (t1 :: t2)) :=
        ih (fun l hl => hg l (List.mem_cons_of_mem _ hl)) (NoAdj_tail hadj)
      rw [show joinNL (x :: t1 :: t2) = x ++ '\n' :: joinNL (t1 :: t2) from rfl]
      by_cases hone : t1 = [] ∧ t2 = []
      · obtain ⟨rfl, rfl⟩ := hone
        rw [show joinNL ([[]] : List (List Char)) = [] from rfl]
        have hx : x ≠ [] := fun h => hadj.1 ⟨h, rfl⟩
        rw [jsTrimEnd_append_ws (by intro c hc; simp at hc; simp [hc, isWS]),
          (hg x (List.mem_cons_self _ _)).1,
          show dropTrailNil (x :: [[]]) = [x] from by simp [dropTrailNil],
          show joinNL [x] = x from rfl]
      · have hDne : dropTrailNil (t1 :: t2) ≠ [] := by
          intro h0
          rcases dropTrailNil_eq_nil h0 with h1 | h1
          · cases h1
          · obtain ⟨rfl, rfl⟩ := List.cons.inj h1
            exact hone ⟨rfl, rfl⟩
        have hJne : joinNL (dropTrailNil (t1 :: t2)) ≠ [] := by
          intro h0
          rcases joinNL_eq_nil h0 with h1 | h1
          · exact hDne h1
          · rcases t2 with _ | ⟨a, t3⟩
            · rw [show dropTrailNil [t1] = if t1 = [] then [] else [t1] from rfl] at h1
              by_cases ht1 : t1 = []
              · rw [if_pos ht1] at h1
                cases h1
              · rw [if_neg ht1] at h1
                exact ht1 (List.cons.inj h1).1
            · rw [show dropTrailNil (t1 :: a :: t3) = t1 :: dropTrailNil (a :: t3)
                from rfl] at h1
              obtain ⟨rfl, h2⟩ := List.cons.inj h1
              rcases dropTrailNil_eq_nil h2 with h3 | h3
              · cases h3
              · obtain ⟨rfl, -⟩ := List.cons.inj h3
                exact hadj.2.1 ⟨rfl, rfl⟩
        have hTne : jsTrimEnd ('\n' :: joinNL (t1 :: t2)) ≠ [] := by
          rw [show ('\n' :: joinNL (t1 :: t2)) = ['\n'] ++ joinNL (t1 :: t2) from rfl,
            jsTrimEnd_append_of_ne_nil (hrest ▸ hJne)]
          simp
        rw [jsTrimEnd_append_of_ne_nil hTne,
          show ('\n' :: joinNL (t1 :: t2)) = ['\n'] ++ joinNL (t1 :: t2) from rfl,
          jsTrimEnd_append_of_ne_nil (hrest ▸ hJne), hrest,
          show dropTrailNil (x :: t1 :: t2) = x :: dropTrailNil (t1 :: t2) from rfl]
        rcases hD : dropTrailNil (t1 :: t2) with _ | ⟨d1, d2⟩
        · exact absurd hD hDne
        · rw [show joinNL (x :: d1 :: d2) = x ++ '\n' :: joinNL (d1 :: d2) from rfl]
          rfl

theorem mem_dropLeadNil {l : List Char} : ∀ {ls : List (List Char)},
    l ∈ dropLeadNil ls → l ∈ ls := by
  intro ls h
  match ls with
  | [] => exact h
  | x :: t =>
    rw [dropLeadNil] at h
    split at h
    · exact List.mem_cons_of_mem _ h
    · exact h

theorem mem_dropTrailNil {l : List Char} : ∀ {ls : List (List Char)},
    l ∈ dropTrailNil ls → l ∈ ls := by
  intro ls
  induction ls with
  | nil => intro h; exact h
  | cons x t ih =>
    intro h
    cases t with
    | nil =>
      rw [dropTrailNil] at h
      split at h
      · cases h
      · exact h
    | cons t1 t2 =>
      rw [show dropTrailNil (x :: t1 :: t2) = x :: dropTrailNil (t1 :: t2) from rfl] at h
      rcases List.mem_cons.mp h with h | h
      · exact h ▸ List.mem_cons_self _ _
      · exact List.mem_cons_of_mem _ (ih h)

theorem GoodLine_mapHead_trimStart : ∀ {ls : List (List Char)}, (∀ l ∈ ls, GoodLine l) →
    ∀ l ∈ mapHead jsTrimStart ls, GoodLine l := by
  intro ls hg l hl
  match ls with
  | [] => cases hl
  | x :: t =>
    rw [show mapHead jsTrimStart (x :: t) = jsTrimStart x :: t from rfl] at hl
    rcases List.mem_cons.mp hl with h | h
    · exact h ▸ GoodLine_trimStart (hg x (List.mem_cons_self _ _))
    · exact hg l (List.mem_cons_of_mem _ h)

theorem NoAdj_dropLeadNil {ls : List (List Char)} (h : NoAdj ls) :
    NoAdj (dropLeadNil ls) := by
  match ls with
  | [] => exact h
  | x :: t =>
    rw [dropLeadNil]
    split
    · exact NoAdj_tail h
    · exact h

theorem NoAdj_mapHead_trimStart : ∀ {ls : List (List Char)}, (∀ l ∈ ls, GoodLine l) →
    NoAdj ls → NoAdj (mapHead jsTrimStart ls) := by
  intro ls hg h
  match ls with
  | [] => trivial
  | [x] => trivial
  | x :: t1 :: t2 =>
    show NoAdj (jsTrimStart x :: t1 :: t2)
    refine ⟨?_, h.2⟩
    rintro ⟨hfx, ht1⟩
    have hx : x = [] := by
      by_contra hxne
      exact jsTrimStart_ne_nil_of_good (hg x (List.mem_cons_self _ _)) hxne hfx
    exact h.1 ⟨hx, ht1⟩

theorem jsTrim_joinNL {ls : List (List Char)} (hg : ∀ l ∈ ls, GoodLine l)
    (hadj : NoAdj ls) : jsTrim (joinNL ls) = joinNL (cleanup ls) := by
  show jsTrimEnd (jsTrimStart (joinNL ls)) = _
  rw [trimStart_joinNL hg hadj]
  exact trimEnd_joinNL (GoodLine_mapHead_trimStart (fun x hx => hg x (mem_dropLeadNil hx)))
    (NoAdj_mapHead_trimStart (fun x hx => hg x (mem_dropLeadNil hx)) (NoAdj_dropLeadNil hadj))

/-! ## Splitting a joined buffer recovers the lines -/

theorem splitLines_no_nl {l : List Char} (h : '\n' ∉ l) : splitLines l = [l] := by
  induction l with
  | nil => rfl
  | cons c t ih =>
    have hc : c ≠ '\n' := fun hc => h (hc ▸ List.mem_cons_self _ _)
    have ht : '\n' ∉ t := fun hm => h (List.mem_cons_of_mem _ hm)
    refine splitLines_cons_other ?_ hc (ih ht)
    intro r1 _ hr
    exact ht (hr ▸ List.mem_cons_self _ _)

theorem splitLines_append_line : ∀ {l : List Char} (s : List Char), '\n' ∉ l →
    l.getLast? ≠ some '\r' → splitLines (l ++ '\n' :: s) = l :: splitLines s := by
  intro l
  induction l with
  | nil =>
    intro s _ _
    rfl
  | cons c t ih =>
    intro s hnl hcr
    have hc : c ≠ '\n' := fun hc => hnl (hc ▸ List.mem_cons_self _ _)
    have ht : '\n' ∉ t := fun hm => hnl (List.mem_cons_of_mem _ hm)
    cases t with
    | nil =>
      have hcc : c ≠ '\r' := by
        intro hcc
        exact hcr (by rw [hcc]; rfl)
      refine splitLines_cons_other ?_ hc rfl
      intro r1 hc2 _
      exact hcc hc2
    | cons d t2 =>
      have hlast : (d :: t2).getLast? ≠ some '\r' := by
        intro h0
        exact hcr (by rw [List.getLast?_cons_cons, h0])
      have heq := ih s ht hlast
      rw [show ((c :: d :: t2) ++ '\n' :: s) = c :: ((d :: t2) ++ '\n' :: s) from rfl]
      refine splitLines_cons_other ?_ hc heq
      intro r1 _ hr
      have : d = '\n' := (List.cons.inj hr).1
      exact ht (this ▸ List.mem_cons_self _ _)

theorem splitLines_joinNL : ∀ {ls : List (List Char)}, ls ≠ [] →
    (∀ l ∈ ls, '\n' ∉ l) → (∀ l ∈ ls, l.getLast? ≠ some '\r') →
    splitLines (joinNL ls) = ls := by
  intro ls
  induction ls with
  | nil => intro h _ _; exact absurd rfl h
  | cons x t ih =>
    intro _ hnl hcr
    cases t with
    | nil => exact splitLines_no_nl (hnl x (List.mem_cons_self _ _))
    | cons t1 t2 =>
      rw [show joinNL (x :: t1 :: t2) = x ++ '\n' :: joinNL (t1 :: t2) from rfl,
        splitLines_append_line _ (hnl x (List.mem_cons_self _ _))
          (hcr x (List.mem_cons_self _ _)),
        ih (by simp) (fun l hl => hnl l (List.mem_cons_of_mem _ hl))
          (fun l hl => hcr l (List.mem_cons_of_mem _ hl))]

/-! ## The machine view of the normalizer -/

/-- The buffer produced by the line loop, in document order (oldest
line first). -/
def machineBuf (s : List Char) : List (List Char) :=
  (procLines (splitLines s) [] none).reverse

theorem machineBuf_spec (s : List Char) :
    (∀ l ∈ procLines (splitLines s) [] none, GoodLine l) ∧
    PairsOK (procLines (splitLines s) [] none) ∧
    TriplesOK (procLines (splitLines s) [] none) ∧
    (procLines (splitLines s) [] none).filter (fun l => !blankB l) =
      (((splitLines s).filter (fun l => !blankB l)).map jsTrimEnd).reverse := by
  have h := procLines_main (splitLines s) [] none (splitLines_no_newline s)
    (by intro l hl; cases hl) trivial trivial
    ⟨fun h0 => Option.noConfusion h0, by intro nb rest h0; cases h0⟩
    (by intro x hx; cases hx)
  exact ⟨h.1, h.2.1, h.2.2.1, by simpa using h.2.2.2.1⟩

theorem machineBuf_good (s : List Char) : ∀ l ∈ machineBuf s, GoodLine l :=
  fun l hl => (machineBuf_spec s).1 l (List.mem_reverse.mp hl)

theorem machineBuf_noadj (s : List Char) : NoAdj (machineBuf s) :=
  NoAdj_reverse (NoAdj_of_PairsOK (machineBuf_spec s).2.1)

theorem machine_norm (s : List Char) :
    normalizeLines s = joinNL (cleanup (machineBuf s)) := by
  have hnl : ∀ l ∈ machineBuf s, '\n' ∉ l := fun l hl => (machineBuf_good s l hl).2
  show jsTrim (capNL (joinNL (machineBuf s))) = _
  rw [capNL_eq_self (ok3_joinNL hnl (machineBuf_noadj s))]
  exact jsTrim_joinNL (machineBuf_good s) (machineBuf_noadj s)

theorem cleanup_good (s : List Char) : ∀ l ∈ cleanup (machineBuf s), GoodLine l :=
  fun l hl =>
    GoodLine_mapHead_trimStart (fun x hx => machineBuf_good s x (mem_dropLeadNil hx)) l
      (mem_dropTrailNil hl)

theorem machine_split (s : List Char) (hne : cleanup (machineBuf s) ≠ []) :
    splitLines (normalizeLines s) = cleanup (machineBuf s) := by
  rw [machine_norm s]
  exact splitLines_joinNL hne (fun l hl => (cleanup_good s l hl).2)
    (fun l hl => GoodLine_last_not_cr (cleanup_good s l hl))

theorem machine_split_nil (s : List Char) (hnil : cleanup (machineBuf s) = []) :
    splitLines (normalizeLines s) = [[]] := by
  rw [machine_norm s, hnil]
  rfl

/-! ## Window predicates in index form -/

theorem PairsOK_adj : ∀ {acc : List (List Char)} {j : Nat} {a b : List Char},
    PairsOK acc → acc[j]? = some a → acc[j + 1]? = some b → okPair a b := by
  intro acc
  induction acc with
  | nil =>
    intro j a b _ ha _
    rw [List.getElem?_nil] at ha
    cases ha
  | cons x t ih =>
    intro j a b hp ha hb
    cases j with
    | zero =>
      rw [List.getElem?_cons_zero] at ha
      obtain rfl := Option.some.inj ha
      rw [List.getElem?_cons_succ] at hb
      match t, hb, hp with
      | y :: t2, hb, hp =>
        rw [List.getElem?_cons_zero] at hb
        obtain rfl := Option.some.inj hb
        exact hp.1
    | succ k =>
      rw [List.getElem?_cons_succ] at ha hb
      exact ih (PairsOK_tail hp) ha hb

theorem TriplesOK_adj : ∀ {acc : List (List Char)} {j : Nat} {a b c : List Char},
    TriplesOK acc → acc[j]? = some a → acc[j + 1]? = some b → acc[j + 2]? = some c →
    okTriple a b c := by
  intro acc
  induction acc with
  | nil =>
    intro j a b c _ ha _ _
    rw [List.getElem?_nil] at ha
    cases ha
  | cons x t ih =>
    intro j a b c ht ha hb hc
    cases j with
    | zero =>
      rw [List.getElem?_cons_zero] at ha
      obtain rfl := Option.some.inj ha
      rw [List.getElem?_cons_succ] at hb hc
      match t, hb, hc, ht with
      | y :: t2, hb, hc, ht =>
        rw [List.getElem?_cons_zero] at hb
        obtain rfl := Option.some.inj hb
        rw [List.getElem?_cons_succ] at hc
        match t2, hc, ht with
        | z :: t3, hc, ht =>
          rw [List.getElem?_cons_zero] at hc
          obtain rfl := Option.some.inj hc
          exact ht.1
    | succ k =>
      rw [List.getElem?_cons_succ] at ha hb hc
      exact ih (TriplesOK_tail ht) ha hb hc

theorem adj_rev_pair {acc : List (List Char)} {i : Nat} {x y : List Char}
    (hp : PairsOK acc) (hx : acc.reverse[i]? = some x)
    (hy : acc.reverse[i + 1]? = some y) : okPair y x := by
  have hiy : i + 1 < acc.length := by
    have := (List.getElem?_eq_some_iff.mp hy).1
    simpa using this
  have hix : i < acc.length := by omega
  rw [List.getElem?_reverse (by simpa using hix)] at hx
  rw [List.getElem?_reverse (by simpa using hiy)] at hy
  rw [show acc.length - 1 - i = (acc.length - 1 - (i + 1)) + 1 from by omega] at hx
  exact PairsOK_adj hp hy hx

theorem adj_rev_triple {acc : List (List Char)} {i : Nat} {x y z : List Char}
    (ht : TriplesOK acc) (hx : acc.reverse[i]? = some x)
    (hy : acc.reverse[i + 1]? = some y) (hz : acc.reverse[i + 2]? = some z) :
    okTriple z y x := by
  have hiz : i + 2 < acc.length := by
    have := (List.getElem?_eq_some_iff.mp hz).1
    simpa using this
  have hiy : i + 1 < acc.length := by omega
  have hix : i < acc.length := by omega
  rw [List.getElem?_reverse (by simpa using hix)] at hx
  rw [List.getElem?_reverse (by simpa using hiy)] at hy
  rw [List.getElem?_reverse (by simpa using hiz)] at hz
  rw [show acc.length - 1 - i = (acc.length - 1 - (i + 2)) + 2 from by omega] at hx
  rw [show acc.length - 1 - (i + 1) = (acc.length - 1 - (i + 2)) + 1 from by omega] at hy
  exact TriplesOK_adj ht hz hy hx

theorem getElem?_of_pre {α : Type} {ls₁ ls₂ : List α} {i : Nat} {x : α}
    (hp : ls₁ <+: ls₂) (h : ls₁[i]? = some x) : ls₂[i]? = some x := by
  obtain ⟨t, rfl⟩ := hp
  rw [List.getElem?_append_left (List.getElem?_eq_some_iff.mp h).1]
  exact h

theorem dropTrailNil_pre : ∀ (ls : List (List Char)), dropTrailNil ls <+: ls := by
  intro ls
  induction ls with
  | nil => exact List.prefix_refl _
  | cons x t ih =>
    cases t with
    | nil =>
      rw [dropTrailNil]
      split
      · exact List.nil_prefix
      · exact List.prefix_refl _
    | cons t1 t2 =>
      rw [show dropTrailNil (x :: t1 :: t2) = x :: dropTrailNil (t1 :: t2) from rfl]
      exact List.cons_prefix_cons.mpr ⟨rfl, ih⟩

theorem mapHead_getElem?_zero {f : List Char → List Char} {ls : List (List Char)}
    {x : List Char} (h : (mapHead f ls)[0]? = some x) :
    ∃ x0, ls[0]? = some x0 ∧ x = f x0 := by
  match ls with
  | [] => cases h
  | y :: t =>
    rw [show mapHead f (y :: t) = f y :: t from rfl, List.getElem?_cons_zero] at h
    exact ⟨y, List.getElem?_cons_zero, (Option.some.inj h).symm⟩

theorem mapHead_getElem?_succ {f : List Char → List Char} {ls : List (List Char)}
    {k : Nat} {x : List Char} (h : (mapHead f ls)[k + 1]? = some x) :
    ls[k + 1]? = some x := by
  match ls with
  | [] => cases h
  | y :: t =>
    rw [show mapHead f (y :: t) = f y :: t from rfl, List.getElem?_cons_succ] at h
    rw [List.getElem?_cons_succ]
    exact h

theorem dropLeadNil_getElem? (ls : List (List Char)) :
    ∃ d : Nat, ∀ i : Nat, (dropLeadNil ls)[i]? = ls[i + d]? := by
  match ls with
  | [] => exact ⟨0, fun i => rfl⟩
  | x :: t =>
    by_cases hx : x = []
    · refine ⟨1, fun i => ?_⟩
      rw [show dropLeadNil (x :: t) = t from by simp [dropLeadNil, hx]]
      exact (List.getElem?_cons_succ).symm
    · refine ⟨0, fun i => ?_⟩
      rw [show dropLeadNil (x :: t) = x :: t from by simp [dropLeadNil, hx]]
      rfl

theorem cleanup_index {ls : List (List Char)} (hg : ∀ l ∈ ls, GoodLine l) :
    ∃ d : Nat, ∀ (i : Nat) (x : List Char), (cleanup ls)[i]? = some x →
      ∃ x0, ls[i + d]? = some x0 ∧ lineClass x0 = lineClass x ∧ (x0 = [] ↔ x = []) := by
  obtain ⟨d, hd⟩ := dropLeadNil_getElem? ls
  refine ⟨d, fun i x hx => ?_⟩
  have hx1 : (mapHead jsTrimStart (dropLeadNil ls))[i]? = some x :=
    getElem?_of_pre (dropTrailNil_pre _) hx
  cases i with
  | zero =>
    obtain ⟨x0, hx0, rfl⟩ := mapHead_getElem?_zero hx1
    have hx0m : x0 ∈ ls := List.getElem?_mem ((hd 0).symm.trans hx0)
    refine ⟨x0, (hd 0).symm.trans hx0, (lineClass_trimStart x0).symm, ?_⟩
    constructor
    · intro h0
      rw [h0]
      rfl
    · intro h0
      by_contra hne
      exact jsTrimStart_ne_nil_of_good (hg x0 hx0m) hne h0
  | succ k =>
    exact ⟨x, (hd (k + 1)).symm.trans (mapHead_getElem?_succ hx1), rfl, Iff.rfl⟩

theorem okPair_congr {x x0 y y0 : List Char} (hcy : lineClass y0 = lineClass y)
    (hey : y0 = [] ↔ y = []) (hcx : lineClass x0 = lineClass x) (hex : x0 = [] ↔ x = [])
    (h : okPair y0 x0) : okPair y x := by
  obtain ⟨h1, h2, h3⟩ := h
  refine ⟨?_, ?_, ?_⟩
  · rintro ⟨hy, hx⟩
    exact h1 ⟨hey.mpr hy, hex.mpr hx⟩
  · intro hcls
    exact hey.mp (h2 (by rw [hcx]; exact hcls))
  · intro hcls
    exact hex.mp (h3 (by rw [hcy]; exact hcls))

theorem okTriple_congr {x x0 y y0 z z0 : List Char} (hcz : lineClass z0 = lineClass z)
    (hey : y0 = [] ↔ y = []) (hcx : lineClass x0 = lineClass x)
    (h : okTriple z0 y0 x0) : okTriple z y x := by
  rintro ⟨hz, hy, hx⟩
  exact h ⟨by rw [hcz]; exact hz, hey.mpr hy, by rw [hcx]; exact hx⟩

theorem normOut_good (s : List Char) :
    ∀ l ∈ splitLines (normalizeLines s), GoodLine l := by
  by_cases hnil : cleanup (machineBuf s) = []
  · rw [machine_split_nil s hnil]
    intro l hl
    rw [List.mem_singleton] at hl
    rw [hl]
    exact GoodLine_nil
  · rw [machine_split s hnil]
    exact cleanup_good s

theorem normOut_pair {s : List Char} {i : Nat} {x y : List Char}
    (hx : (splitLines (normalizeLines s))[i]? = some x)
    (hy : (splitLines (normalizeLines s))[i + 1]? = some y) : okPair y x := by
  by_cases hnil : cleanup (machineBuf s) = []
  · rw [machine_split_nil s hnil] at hy
    have := (List.getElem?_eq_some_iff.mp hy).1
    simp at this
  · rw [machine_split s hnil] at hx hy
    obtain ⟨d, hd⟩ := cleanup_index (machineBuf_good s)
    obtain ⟨x0, hx0, hcx, hex⟩ := hd i x hx
    obtain ⟨y0, hy0, hcy, hey⟩ := hd (i + 1) y hy
    have hx0r : (procLines (splitLines s) [] none).reverse[i + d]? = some x0 := hx0
    have hy0r : (procLines (splitLines s) [] none).reverse[(i + d) + 1]? = some y0 := by
      rw [show i + d + 1 = i + 1 + d from by omega]
      exact hy0
    exact okPair_congr hcy hey hcx hex
      (adj_rev_pair (machineBuf_spec s).2.1 hx0r hy0r)

theorem normOut_triple {s : List Char} {i : Nat} {x y z : List Char}
    (hx : (splitLines (normalizeLines s))[i]? = some x)
    (hy : (splitLines (normalizeLines s))[i + 1]? = some y)
    (hz : (splitLines (normalizeLines s))[i + 2]? = some z) : okTriple z y x := by
  by_cases hnil : cleanup (machineBuf s) = []
  · rw [machine_split_nil s hnil] at hy
    have := (List.getElem?_eq_some_iff.mp hy).1
    simp at this
  · rw [machine_split s hnil] at hx hy hz
    obtain ⟨d, hd⟩ := cleanup_index (machineBuf_good s)
    obtain ⟨x0, hx0, hcx, hex⟩ := hd i x hx
    obtain ⟨y0, hy0, hcy, hey⟩ := hd (i + 1) y hy
    obtain ⟨z0, hz0, hcz, hez⟩ := hd (i + 2) z hz
    have hx0r : (procLines (splitLines s) [] none).reverse[i + d]? = some x0 := hx0
    have hy0r : (procLines (splitLines s) [] none).reverse[(i + d) + 1]? = some y0 := by
      rw [show i + d + 1 = i + 1 + d from by omega]
      exact hy0
    have hz0r : (procLines (splitLines s) [] none).reverse[(i + d) + 2]? = some z0 := by
      rw [show i + d + 2 = i + 2 + d from by omega]
      exact hz0
    exact okTriple_congr hcz hey hcx
      (adj_rev_triple (machineBuf_spec s).2.2.1 hx0r hy0r hz0r)

/-! ## Non-blank lines survive the cleanup unchanged -/

theorem dropLeadNil_eq_nil : ∀ {ls : List (List Char)},
    dropLeadNil ls = [] → ls = [] ∨ ls = [[]] := by
  intro ls h
  match ls with
  | [] => exact Or.inl rfl
  | x :: t =>
    right
    rw [dropLeadNil] at h
    by_cases hx : x = []
    · rw [if_pos hx] at h
      rw [hx, h]
    · rw [if_neg hx] at h
      cases h

theorem head_dropLeadNil_ne_nil {ls : List (List Char)} {c : List Char}
    {t : List (List Char)} (hadj : NoAdj ls) (h : dropLeadNil ls = c :: t) : c ≠ [] := by
  match ls with
  | [] => cases h
  | x :: tt =>
    rw [dropLeadNil] at h
    by_cases hx : x = []
    · rw [if_pos hx] at h
      subst hx
      intro hc
      subst h
      exact hadj.1 ⟨rfl, hc⟩
    · rw [if_neg hx] at h
      obtain ⟨h1, -⟩ := List.cons.inj h
      exact h1 ▸ hx

theorem filter_dropLeadNil (ls : List (List Char)) :
    (dropLeadNil ls).filter (fun l => !blankB l) = ls.filter (fun l => !blankB l) := by
  match ls with
  | [] => rfl
  | x :: t =>
    rw [dropLeadNil]
    by_cases hx : x = []
    · rw [if_pos hx, hx, List.filter_cons, if_neg (by simp [blankB_nil])]
    · rw [if_neg hx]

theorem filter_dropTrailNil : ∀ (ls : List (List Char)),
    (dropTrailNil ls).filter (fun l => !blankB l) = ls.filter (fun l => !blankB l) := by
  intro ls
  induction ls with
  | nil => rfl
  | cons x t ih =>
    cases t with
    | nil =>
      rw [dropTrailNil]
      by_cases hx : x = []
      · rw [if_pos hx, hx, List.filter_cons, if_neg (by simp [blankB_nil])]
      · rw [if_neg hx]
    | cons t1 t2 =>
      rw [show dropTrailNil (x :: t1 :: t2) = x :: dropTrailNil (t1 :: t2) from rfl,
        List.filter_cons, List.filter_cons, ih]

theorem filter_cleanup {ls : List (List Char)} (hg : ∀ l ∈ ls, GoodLine l)
    (hadj : NoAdj ls) :
    (cleanup ls).filter (fun l => !blankB l) =
      mapHead jsTrimStart (ls.filter (fun l => !blankB l)) := by
  show (dropTrailNil (mapHead jsTrimStart (dropLeadNil ls))).filter _ = _
  rw [filter_dropTrailNil, ← filter_dropLeadNil ls]
  rcases hC : dropLeadNil ls with _ | ⟨c0, t0⟩
  · rfl
  · have hc0 : c0 ≠ [] := head_dropLeadNil_ne_nil hadj hC
    have hc0g : GoodLine c0 :=
      hg c0 (mem_dropLeadNil (hC ▸ List.mem_cons_self _ _))
    have hb : blankB c0 = false := by
      cases hb2 : blankB c0 with
      | false => rfl
      | true => exact absurd (nil_of_blank_good hc0g hb2) hc0
    rw [show mapHead jsTrimStart (c0 :: t0) = jsTrimStart c0 :: t0 from rfl,
      List.filter_cons, List.filter_cons, if_pos (by simp [blankB_trimStart, hb]),
      if_pos (by simp [hb])]
    rfl

theorem machineBuf_filter (s : List Char) :
    (machineBuf s).filter (fun l => !blankB l) =
      ((splitLines s).filter (fun l => !blankB l)).map jsTrimEnd := by
  show ((procLines (splitLines s) [] none).reverse.filter _) = _
  rw [List.filter_reverse, (machineBuf_spec s).2.2.2, List.reverse_reverse]

/-! ## Facts about the frontmatter matcher -/

theorem yamlMatchLen_pre {d : List Char} (h : (yamlMatchLen d).isSome = true) :
    isPref ['-', '-', '-'] d = true := by
  rw [yamlMatchLen] at h
  split at h
  · assumption
  · simp at h

theorem yamlMatchLen_ws_head {c : Char} (cs : List Char) (h : isWS c = true) :
    yamlMatchLen (c :: cs) = none := by
  rw [yamlMatchLen, if_neg]
  intro hp
  rw [isPref] at hp
  simp only [Bool.and_eq_true, decide_eq_true_eq] at hp
  rw [← hp.1] at h
  exact absurd h (by decide)

/-! ## Claim theorems: concrete behaviour of the extractor and rewriter -/

/-- C5: the output of the normalizer never contains three or more
consecutive line terminators, has no leading or trailing whitespace
(in particular no leading or trailing blank lines), and
`"Para1\n\n\n\nPara2"` is normalized to `"Para1\n\nPara2"`. -/
theorem C5_blank_run_bound :
    (∀ s : List Char, ok3 (modifyContentProtected s) = true ∧
      jsTrim (modifyContentProtected s) = modifyContentProtected s) ∧
    modifyContentProtected "Para1\n\n\n\nPara2".data = "Para1\n\nPara2".data := by
  refine ⟨fun s => ⟨?_, ?_⟩, by decide⟩
  · exact ok3_inf (ok3_capNL _) (jsTrim_inf _)
  · exact jsTrim_idem _

/-- C6: the math rewriter performs the display pass (`\[...\]` to
`$$trimmed$$`) before the inline pass (`\(...\)` to `$trimmed$`), each
pass replacing non-overlapping shortest matches left to right:
`\[ x^2 \]` becomes `$$x^2$$` with the interior whitespace trimmed,
`\(a+b\)` becomes `$a+b$`, a `\( x \)` inside a fenced code block is not
rewritten by the full pipeline, the lazy match `\[a\]b\]` stops at the
first `\]`, and on adjacent forms the display result is produced before
inline rewriting sees the text. -/
theorem C6_math_rewrite :
    modifyContentProtected "\\[ x^2 \\]".data = "$$x^2$$".data ∧
    modifyContentProtected "\\(a+b\\)".data = "$a+b$".data ∧
    lint "```\n\\( x \\)\n```".data = "```\n\\( x \\)\n```".data ∧
    rewriteDisplay "\\[a\\]b\\]".data = "$$a$$b\\]".data ∧
    modifyContentProtected "\\[1\\]\\(2\\)".data = "$$1$$$2$".data := by
  refine ⟨by decide, by decide, by decide, by decide, by decide⟩

/-- C7 counterexample: a document whose first line has whitespace before
`---` does NOT have its frontmatter detected (the regex is anchored with
`^---`, tolerating only trailing whitespace), and the region between the
delimiters is transformed rather than preserved. -/
theorem C7_counterexample :
    yamlMatchLen " ---\nt\n---\nX".data = none ∧
    lint " ---\n# H\n---\nX".data = "---\n\n# H\n\n---\nX".data := by
  refine ⟨by decide, by decide⟩

/-- C7 amended: frontmatter is recognized only when the document starts
with `---` at position 0 (no leading whitespace tolerated: any leading
whitespace character defeats detection), while trailing whitespace after
the opening `---` is tolerated. -/
theorem C7_frontmatter_anchoring :
    (∀ d : List Char, (yamlMatchLen d).isSome = true → isPref ['-', '-', '-'] d = true) ∧
    (∀ (c : Char) (cs : List Char), isWS c = true → yamlMatchLen (c :: cs) = none) ∧
    yamlMatchLen "---  \nt\n---\nX".data = some 12 ∧
    "---  \nt\n---\nX".data.take 12 = "---  \nt\n---\n".data := by
  exact ⟨fun d h => yamlMatchLen_pre h, fun c cs h => yamlMatchLen_ws_head cs h,
    by decide, by decide⟩

/-- C7 amended, witness. -/
theorem C7_frontmatter_anchoring_w :
    isPref ['-', '-', '-'] "---\nt\n---\n".data = true ∧
    yamlMatchLen (' ' :: "---\nt\n---\n".data) = none :=
  ⟨C7_frontmatter_anchoring.1 _ (by decide),
   C7_frontmatter_anchoring.2.1 ' ' _ (by decide)⟩

/-- C8: extraction of protected regions is total and treats a malformed
region as ordinary text: a fenced-code opening with no closing fence
produces no placeholder and leaves the text unchanged, an unterminated
frontmatter delimiter is not matched, and in both cases the opening
delimiter line remains in the body, subject to the normal heading /
blank-line rules. -/
theorem C8_malformed_regions :
    (∀ d pre rest : List Char, splitSub ticks d = some (pre, rest) →
      splitSub ticks rest = none → protectBlocks d = (d, [])) ∧
    yamlMatchLen "---\ntitle".data = none ∧
    lint "---\n# H".data = "---\n\n# H".data ∧
    lint "```\n# H".data = "```\n\n# H".data := by
  refine ⟨?_, by decide, by decide, by decide⟩
  intro d pre rest h1 h2
  rw [protectBlocks]
  cases hl : d.length with
  | zero =>
    rw [List.length_eq_zero.mp hl] at h1
    simp [splitSub] at h1
  | succ n =>
    rw [protectBlocksF, h1]
    simp [h2]

/-- C8 witness. -/
theorem C8_malformed_regions_w : protectBlocks "```a".data = ("```a".data, []) :=
  C8_malformed_regions.1 _ [] "a".data (by decide) (by decide)

/-- C2 (code bug): a fenced code block containing `$$` is NOT restored
byte-identically: the restoration loop uses `String.replace` with a
string replacement, whose `$`-substitution turns `$$` into `$`, so
`lint` maps the document ```` ```$$``` ```` to ```` ```$``` ````. -/
theorem C2_restore_bug : lint "```$$```".data = "```$```".data := by decide

/-- C1 counterexample: `lint` is not idempotent.  Four mechanisms:
a nested `\[`/`\]` pattern whose first rewrite leaves a new matchable
pair; a code block containing `$$$$`, halved to `$$` by one restore and
halved again by the next; a body whose normalized form begins with a
`---` line, so the second run treats it as frontmatter and skips
normalizing the region (whose interior lines then get re-trimmed
differently); and a list line whose `\s+` after the marker was entirely
trailing whitespace, so after `trimEnd` the second run classifies it as
ordinary text and inserts a blank line after the preceding list item. -/
theorem C1_counterexample :
    lint (lint "\\[a\\[b\\]c\\]".data) ≠ lint "\\[a\\[b\\]c\\]".data ∧
    lint (lint "```a$$$$b```".data) ≠ lint "```a$$$$b```".data ∧
    lint (lint "\n---\na\n---\n\n  b".data) ≠ lint "\n---\na\n---\n\n  b".data ∧
    lint (lint "- a\n- ".data) ≠ lint "- a\n- ".data := by
  refine ⟨by decide, by decide, by decide, by decide⟩

/-- C3: in the output of the normalizer, every heading-classified line is
immediately preceded by either the start of the document or a blank line,
and immediately followed by either the end of the document or a blank
line. -/
theorem C3_heading_spacing (s : List Char) (i : Nat) (l : List Char)
    (hl : (splitLines (modifyContentProtected s))[i]? = some l)
    (hh : isHeadingB l = true) :
    (i = 0 ∨ ∃ p, (splitLines (modifyContentProtected s))[i - 1]? = some p ∧
      blankB p = true) ∧
    ((splitLines (modifyContentProtected s))[i + 1]? = none ∨
      ∃ n, (splitLines (modifyContentProtected s))[i + 1]? = some n ∧
        blankB n = true) := by
  have hcls : lineClass l = LC.h := lineClass_eq_h.mpr hh
  constructor
  · cases i with
    | zero => exact Or.inl rfl
    | succ k =>
      right
      rcases hop : (splitLines (modifyContentProtected s))[k]? with _ | p
      · exfalso
        have h1 := (List.getElem?_eq_some_iff.mp hl).1
        rw [List.getElem?_eq_none_iff] at hop
        omega
      · refine ⟨p, hop, ?_⟩
        have hok := normOut_pair (s := rewriteInline (rewriteDisplay s)) hop hl
        rw [hok.2.2 hcls]
        rfl
  · rcases hon : (splitLines (modifyContentProtected s))[i + 1]? with _ | n
    · exact Or.inl rfl
    · right
      refine ⟨n, rfl, ?_⟩
      have hok := normOut_pair (s := rewriteInline (rewriteDisplay s)) hl hon
      rw [hok.2.1 hcls]
      rfl

/-- C3 witness: in the output of `modifyContentProtected "a\n# H\nb"` the
heading sits at index 2, preceded and followed by blank lines. -/
theorem C3_heading_spacing_w :
    ((2 : Nat) = 0 ∨ ∃ p, (splitLines (modifyContentProtected "a\n# H\nb".data))[2 - 1]? =
      some p ∧ blankB p = true) ∧
    ((splitLines (modifyContentProtected "a\n# H\nb".data))[2 + 1]? = none ∨
      ∃ n, (splitLines (modifyContentProtected "a\n# H\nb".data))[2 + 1]? = some n ∧
        blankB n = true) :=
  C3_heading_spacing "a\n# H\nb".data 2 "# H".data (by decide) (by decide)

/-- C4: in the output of the normalizer, no two list-item lines are
separated by blank lines: if every output line strictly between two
list-item lines is blank, the two lines are in fact adjacent.  The
spec's scenario input is compacted accordingly. -/
theorem C4_list_compaction :
    (∀ (s : List Char) (i j : Nat) (a b : List Char),
      (splitLines (modifyContentProtected s))[i]? = some a →
      (splitLines (modifyContentProtected s))[j]? = some b →
      i < j → isListItemB a = true → isListItemB b = true →
      (∀ (k : Nat) (l : List Char), i < k → k < j →
        (splitLines (modifyContentProtected s))[k]? = some l → blankB l = true) →
      j = i + 1) ∧
    modifyContentProtected "- a\n\n- b\n\n- c".data = "- a\n- b\n- c".data := by
  refine ⟨?_, by decide⟩
  intro s i j a b ha hb hij hla hlb hbet
  by_contra hne
  have hj2 : i + 2 ≤ j := by omega
  have hjlen := (List.getElem?_eq_some_iff.mp hb).1
  rcases hp : (splitLines (modifyContentProtected s))[i + 1]? with _ | p
  · rw [List.getElem?_eq_none_iff] at hp
    omega
  · have hpb : blankB p = true := hbet (i + 1) p (by omega) (by omega) hp
    have hpg : GoodLine p :=
      normOut_good (rewriteInline (rewriteDisplay s)) p (List.getElem?_mem hp)
    have hpnil : p = [] := nil_of_blank_good hpg hpb
    by_cases hj3 : j = i + 2
    · have hb2 : (splitLines (modifyContentProtected s))[i + 2]? = some b := by
        rw [← hj3]
        exact hb
      have hok := normOut_triple (s := rewriteInline (rewriteDisplay s)) ha hp hb2
      exact hok ⟨lineClass_eq_li.mpr hlb, hpnil, lineClass_eq_li.mpr hla⟩
    · have hq0 : ∃ q, (splitLines (modifyContentProtected s))[i + 2]? = some q := by
        rcases hq1 : (splitLines (modifyContentProtected s))[i + 2]? with _ | q
        · rw [List.getElem?_eq_none_iff] at hq1
          omega
        · exact ⟨q, rfl⟩
      obtain ⟨q, hq⟩ := hq0
      have hqb : blankB q = true := hbet (i + 2) q (by omega) (by omega) hq
      have hqg : GoodLine q :=
        normOut_good (rewriteInline (rewriteDisplay s)) q (List.getElem?_mem hq)
      have hqnil : q = [] := nil_of_blank_good hqg hqb
      have hok := normOut_pair (s := rewriteInline (rewriteDisplay s)) hp hq
      exact hok.1 ⟨hqnil, hpnil⟩

/-- C4 witness: applying the compaction property to the two list items of
`modifyContentProtected "- a\n\n- b"`, which are adjacent in the output. -/
theorem C4_list_compaction_w : (1 : Nat) = 0 + 1 :=
  C4_list_compaction.1 "- a\n\n- b".data 0 1 "- a".data "- b".data (by decide) (by decide)
    (by decide) (by decide) (by decide) (fun k l hk1 hk2 _ => absurd hk1 (by omega))

/-- C10: the line loop together with the final cap/trim never deletes,
reorders, merges or rewrites non-blank lines: the non-blank lines of
`normalizeLines s` are exactly the non-blank lines of `s`, in order, each
with its trailing whitespace removed, the first one additionally with its
leading whitespace removed by the final trim; only blank lines are
inserted or removed. -/
theorem C10_nonblank_lines (s : List Char) :
    (splitLines (normalizeLines s)).filter (fun l => !blankB l) =
      mapHead jsTrimStart (((splitLines s).filter (fun l => !blankB l)).map jsTrimEnd) := by
  rw [← machineBuf_filter s]
  by_cases hnil : cleanup (machineBuf s) = []
  · rw [machine_split_nil s hnil]
    have h := filter_cleanup (machineBuf_good s) (machineBuf_noadj s)
    rw [hnil] at h
    exact h
  · rw [machine_split s hnil]
    exact filter_cleanup (machineBuf_good s) (machineBuf_noadj s)

/-! ### further scenario checks from the spec -/

theorem scenario_list_scenario :
    modifyContentProtected "- a\n\n- b\n\n- c".data = "- a\n- b\n- c".data := by decide

theorem scenario_frontmatter_preserved :
    lint "---\ntitle: t\n---\n# H\nSome text".data =
      "---\ntitle: t\n---\n# H\n\nSome text".data := by decide

theorem scenario_hash_without_space_is_not_heading :
    modifyContentProtected "#NoSpace".data = "#NoSpace".data := by decide

end MyLint
